import Mathlib

set_option maxHeartbeats 1000000

namespace Tralala

/-- An edit-script component, mirroring the JavaScript objects built by the
embedded diff routine of the mentions-input widget: `count` is absent (`none`)
in the three early-return scripts and present otherwise, `added` and `removed`
model the JS flags with the absent flag read as `false`, and `value` models the
JS `value` property, `[]` standing for a value that has not been materialized
yet during the search. -/
structure Component (α : Type) where
  count : Option Nat
  added : Bool
  removed : Bool
  value : List α
deriving DecidableEq, Repr

/-- Numeric view of the `count` field, used by the arithmetic on components. -/
def cnt {α} (c : Component α) : Nat := c.count.getD 0

/-- A candidate search path: `newPos` is the index of the last consumed element
of the new sequence (`-1` before anything is consumed) and `components` is the
list of edit components accumulated so far along this path. -/
structure SPath (α : Type) where
  newPos : Int
  components : List (Component α)
deriving DecidableEq, Repr

/-- Model of `pushComponent`: append a one-element added or removed component,
merging it into the last component when that component carries the same pair of
flags. -/
def pushComponent {α} (components : List (Component α)) (added removed : Bool) :
    List (Component α) :=
  match components.getLast? with
  | some last =>
    if last.added = added ∧ last.removed = removed then
      components.dropLast ++ [⟨some (cnt last + 1), added, removed, []⟩]
    else
      components ++ [⟨some 1, added, removed, []⟩]
  | none => components ++ [⟨some 1, added, removed, []⟩]

/-- JavaScript-style indexing: out-of-range access yields `none` (undefined). -/
def jsIndex {α} (l : List α) (i : Int) : Option α :=
  if h : 0 ≤ i ∧ i < (l.length : Int) then some (l.get ⟨i.toNat, by omega⟩) else none

/-- JavaScript loose equality on possibly-undefined elements: two undefined
values compare equal, a defined and an undefined value do not. -/
def jsEq {α} [DecidableEq α] : Option α → Option α → Bool
  | some a, some b => decide (a = b)
  | none, none => true
  | _, _ => false

/-- The while-loop of `extractCommon`: the number of consecutive positions from
`(newPos+1, oldPos+1)` on at which the two sequences agree, with both indices
in range. -/
def snakeLen {α} [DecidableEq α] (newString oldString : List α)
    (newPos oldPos : Int) : Nat :=
  if newPos + 1 < (newString.length : Int) ∧ oldPos + 1 < (oldString.length : Int) ∧
      jsEq (jsIndex newString (newPos + 1)) (jsIndex oldString (oldPos + 1)) = true then
    snakeLen newString oldString (newPos + 1) (oldPos + 1) + 1
  else 0
termination_by ((newString.length : Int) - newPos).toNat
decreasing_by omega

/-- Model of `extractCommon`: starting from the path's position on the given
diagonal, greedily consume the run of equal elements, record it as a common
component when non-empty, and return the updated path with the final old
position. -/
def extractCommon {α} [DecidableEq α] (basePath : SPath α) (newString oldString : List α)
    (diagonalPath : Int) : SPath α × Int :=
  let newPos := basePath.newPos
  let oldPos := newPos - diagonalPath
  let commonCount := snakeLen newString oldString newPos oldPos
  let components :=
    if commonCount ≠ 0 then basePath.components ++ [⟨some commonCount, false, false, []⟩]
    else basePath.components
  (⟨newPos + commonCount, components⟩, oldPos + commonCount)

/-- Model of `clonePath`: a fresh path object with the same position and the
same component list. -/
def clonePath {α} (path : SPath α) : SPath α := ⟨path.newPos, path.components⟩

/-- Model of `buildValues`: walk the component list, materializing each value
as a slice of the new sequence (non-removed components) or of the old sequence
(removed components), advancing the respective positions. -/
def buildValues {α} : List (Component α) → List α → List α → Nat → Nat →
    List (Component α)
  | [], _, _, _, _ => []
  | c :: cs, newString, oldString, newPos, oldPos =>
    if c.removed = false then
      ⟨c.count, c.added, c.removed, (newString.drop newPos).take (cnt c)⟩ ::
        (if c.added = false then
          buildValues cs newString oldString (newPos + cnt c) (oldPos + cnt c)
        else
          buildValues cs newString oldString (newPos + cnt c) oldPos)
    else
      ⟨c.count, c.added, c.removed, (oldString.drop oldPos).take (cnt c)⟩ ::
        buildValues cs newString oldString newPos (oldPos + cnt c)

/-- Model of the branch-selection condition of `execEditLength`: the result is
`true` when the delete-move branch (a clone of the diagonal `k+1` predecessor)
is taken and `false` when the insert-move branch (the diagonal `k-1`
predecessor) is taken. -/
def selectBase (canAdd canRemove : Bool) (addNewPos removeNewPos : Int) : Bool :=
  !canAdd || (canRemove && decide (addNewPos < removeNewPos))

/-- One iteration of the inner diagonal loop of `execEditLength`: either the
finished edit script (`Sum.inl`) or the updated best-path table (`Sum.inr`). -/
def execDiagonal {α} [DecidableEq α] (newString oldString : List α)
    (bestPath : Int → Option (SPath α)) (diagonalPath : Int) :
    List (Component α) ⊕ (Int → Option (SPath α)) :=
  let newLen : Int := newString.length
  let oldLen : Int := oldString.length
  let addPath := bestPath (diagonalPath - 1)
  let removePath := bestPath (diagonalPath + 1)
  let oldPos := (match removePath with | some p => p.newPos | none => 0) - diagonalPath
  let bestPath1 : Int → Option (SPath α) :=
    if addPath.isSome then fun k => if k = diagonalPath - 1 then none else bestPath k
    else bestPath
  let canAdd : Bool :=
    match addPath with
    | some p => decide (p.newPos + 1 < newLen)
    | none => false
  let canRemove : Bool :=
    match removePath with
    | some _ => decide (0 ≤ oldPos ∧ oldPos < oldLen)
    | none => false
  if canAdd = false ∧ canRemove = false then
    Sum.inr (fun k => if k = diagonalPath then none else bestPath1 k)
  else
    let dflt : SPath α := ⟨0, []⟩
    let basePath :=
      if selectBase canAdd canRemove (addPath.getD dflt).newPos
          (removePath.getD dflt).newPos then
        let p := clonePath (removePath.getD dflt)
        SPath.mk p.newPos (pushComponent p.components false true)
      else
        let p := addPath.getD dflt
        SPath.mk (p.newPos + 1) (pushComponent p.components true false)
    let ec := extractCommon basePath newString oldString diagonalPath
    if ec.1.newPos + 1 ≥ newLen ∧ ec.2 + 1 ≥ oldLen then
      Sum.inl (buildValues ec.1.components newString oldString 0 0)
    else
      Sum.inr (fun k => if k = diagonalPath then some ec.1 else bestPath1 k)

/-- The list of diagonals visited by one pass of `execEditLength`:
`-editLength, -editLength + 2, ..., editLength`. -/
def diagonals (editLength : Nat) : List Int :=
  (List.range (editLength + 1)).map (fun (i : Nat) => -(editLength : Int) + 2 * (i : Int))

/-- The diagonal loop of `execEditLength`, folded over the list of diagonals. -/
def execDiagLoop {α} [DecidableEq α] (newString oldString : List α) :
    List Int → (Int → Option (SPath α)) →
    List (Component α) ⊕ (Int → Option (SPath α))
  | [], bp => Sum.inr bp
  | d :: ds, bp =>
    match execDiagonal newString oldString bp d with
    | Sum.inl res => Sum.inl res
    | Sum.inr bp2 => execDiagLoop newString oldString ds bp2

/-- The outer trial-edit-length loop of `diffChars`: run passes of increasing
edit length while `editLength ≤ maxEditLength`; `none` models the JS function
falling off the end of the loop without producing a result. -/
def diffLoop {α} [DecidableEq α] (newString oldString : List α)
    (bp : Int → Option (SPath α)) (editLength maxEditLength : Nat) :
    Option (List (Component α)) :=
  if editLength ≤ maxEditLength then
    match execDiagLoop newString oldString (diagonals editLength) bp with
    | Sum.inl res => some res
    | Sum.inr bp2 => diffLoop newString oldString bp2 (editLength + 1) maxEditLength
  else none
termination_by maxEditLength + 1 - editLength

/-- Model of `diffChars`: the three unrolled trivial cases, the seeded
edit-length-0 snake, and the main search loop. -/
def diffChars {α} [DecidableEq α] (oldString newString : List α) :
    Option (List (Component α)) :=
  if newString = oldString then some [⟨none, false, false, newString⟩]
  else if newString = [] then some [⟨none, false, true, oldString⟩]
  else if oldString = [] then some [⟨none, true, false, newString⟩]
  else
    let newLen := newString.length
    let oldLen := oldString.length
    let maxEditLength := newLen + oldLen
    let ec := extractCommon ⟨-1, []⟩ newString oldString 0
    if ec.1.newPos + 1 ≥ (newLen : Int) ∧ ec.2 + 1 ≥ (oldLen : Int) then
      some [⟨none, false, false, newString⟩]
    else
      diffLoop newString oldString (fun d => if d = 0 then some ec.1 else none)
        1 maxEditLength

/-- Reference dynamic-programming insert/delete edit distance between two
sequences, written from the specification's description of the
independently-computable Levenshtein-style insert/delete distance. -/
def dist {α} [DecidableEq α] : List α → List α → Nat
  | [], ys => ys.length
  | x :: xs, [] => (x :: xs).length
  | x :: xs, y :: ys =>
    if x = y then dist xs ys
    else 1 + min (dist (x :: xs) ys) (dist xs (y :: ys))
termination_by xs ys => xs.length + ys.length

/-- Length of the longest common prefix of two sequences. -/
def lcpLength {α} [DecidableEq α] : List α → List α → Nat
  | x :: xs, y :: ys => if x = y then lcpLength xs ys + 1 else 0
  | _, _ => 0

/-- Concatenation of the values of the components not flagged `removed`. -/
def nonRemovedConcat {α} (cs : List (Component α)) : List α :=
  ((cs.filter (fun c => !c.removed)).map Component.value).flatten

/-- Concatenation of the values of the components not flagged `added`. -/
def nonAddedConcat {α} (cs : List (Component α)) : List α :=
  ((cs.filter (fun c => !c.added)).map Component.value).flatten

/-- Total count carried by added and removed components. -/
def editSum {α} (cs : List (Component α)) : Nat :=
  (cs.map (fun c => if c.added || c.removed then cnt c else 0)).sum

/-- Total length of the values of added and removed components. -/
def editValSum {α} (cs : List (Component α)) : Nat :=
  (cs.map (fun c => if c.added || c.removed then c.value.length else 0)).sum

/-- Total count carried by the components that consume the new sequence. -/
def sumNew {α} (cs : List (Component α)) : Nat :=
  (cs.map (fun c => if c.removed then 0 else cnt c)).sum

/-- Total count carried by the components that consume the old sequence. -/
def sumOld {α} (cs : List (Component α)) : Nat :=
  (cs.map (fun c => if c.removed then cnt c else if c.added then 0 else cnt c)).sum

/-- Two components are of the same kind when they carry the same pair of
added/removed flags. -/
def sameKind {α} (a b : Component α) : Prop :=
  a.added = b.added ∧ a.removed = b.removed

instance {α} (a b : Component α) : Decidable (sameKind a b) := by
  unfold sameKind; infer_instance

/-- Validity of a component list as an alignment of `oldString` and
`newString` read from positions `oldPos` and `newPos` on: common components
must match equal slices of both sequences. -/
def alignedB {α} [DecidableEq α] (newString oldString : List α) :
    List (Component α) → Nat → Nat → Bool
  | [], _, _ => true
  | c :: cs, newPos, oldPos =>
    if c.removed then alignedB newString oldString cs newPos (oldPos + cnt c)
    else if c.added then alignedB newString oldString cs (newPos + cnt c) oldPos
    else
      decide ((newString.drop newPos).take (cnt c) = (oldString.drop oldPos).take (cnt c)) &&
        alignedB newString oldString cs (newPos + cnt c) (oldPos + cnt c)

/-- The pair of added/removed flags of each component, in order. -/
def kinds {α} (cs : List (Component α)) : List (Bool × Bool) :=
  cs.map (fun c => (c.added, c.removed))

/-- Edit distance between the suffixes of the two sequences that remain after
consuming `i` elements of the old sequence and `j` elements of the new one. -/
def distSuffix {α} [DecidableEq α] (newString oldString : List α) (i j : Nat) : Nat :=
  dist (oldString.drop i) (newString.drop j)

/-- Invariant satisfied by every live search path stored in the best-path table
after the pass of edit length `e`, on diagonal `d`. -/
structure PathOK {α : Type} [DecidableEq α] (newString oldString : List α)
    (e : Nat) (d : Int) (p : SPath α) : Prop where
  npos : p.newPos = (sumNew p.components : Int) - 1
  dpos : (sumNew p.components : Int) - (sumOld p.components : Int) = d
  edits : editSum p.components = e
  aligned : alignedB newString oldString p.components 0 0 = true
  jle : sumNew p.components ≤ newString.length
  ile : sumOld p.components ≤ oldString.length
  maximal : lcpLength (newString.drop (sumNew p.components))
    (oldString.drop (sumOld p.components)) = 0
  notdone : ¬ (sumNew p.components = newString.length ∧
    sumOld p.components = oldString.length)
  counts : ∀ c ∈ p.components, ∃ k, c.count = some k ∧ 1 ≤ k
  flags : ∀ c ∈ p.components, ¬ (c.added = true ∧ c.removed = true)
  chain : List.Chain' (fun a b => ¬ sameKind a b) p.components
  headlcp : 1 ≤ lcpLength newString oldString →
    ∃ rest, p.components =
      Component.mk (some (lcpLength newString oldString)) false false [] :: rest

/-- Properties of a finished edit script produced at edit length `e`. -/
structure ResultOK {α : Type} [DecidableEq α] (newString oldString : List α)
    (e : Nat) (res : List (Component α)) : Prop where
  reconNew : nonRemovedConcat res = newString
  reconOld : nonAddedConcat res = oldString
  esum : editSum res = e
  dle : dist oldString newString ≤ e
  counts : ∀ c ∈ res, ∃ k, c.count = some k ∧ 1 ≤ k ∧ c.value.length = k
  flags : ∀ c ∈ res, ¬ (c.added = true ∧ c.removed = true)
  chain : List.Chain' (fun a b => ¬ sameKind a b) res
  headlcp : 1 ≤ lcpLength newString oldString →
    ∃ rest, res = Component.mk (some (lcpLength newString oldString)) false false
      (newString.take (lcpLength newString oldString)) :: rest

/-- The diagonal `d` still to be processed in the current pass of edit length
`e` has a predecessor in the table from which an optimal move (an insert from
diagonal `d-1`, or a delete from diagonal `d+1`) leads to a point at edit
distance `dist - e` from the end. -/
def Pending {α} [DecidableEq α] (newString oldString : List α) (e : Nat)
    (bp : Int → Option (SPath α)) (d : Int) : Prop :=
  (∃ a, bp (d - 1) = some a ∧ PathOK newString oldString (e - 1) (d - 1) a ∧
      sumNew a.components < newString.length ∧
      distSuffix newString oldString (sumOld a.components) (sumNew a.components + 1) + e =
        dist oldString newString) ∨
  (∃ r, bp (d + 1) = some r ∧ PathOK newString oldString (e - 1) (d + 1) r ∧
      sumOld r.components < oldString.length ∧
      distSuffix newString oldString (sumOld r.components + 1) (sumNew r.components) + e =
        dist oldString newString)

/-- State of the best-path table after a full pass of edit length `e`: every
entry is a valid path of `e` edits on an in-range diagonal of matching parity,
and some entry lies on an optimal path to the end. -/
def GoodState {α} [DecidableEq α] (newString oldString : List α) (e : Nat)
    (bp : Int → Option (SPath α)) : Prop :=
  (∀ d p, bp d = some p → (d + (e : Int)) % 2 = 0 ∧ -(e : Int) ≤ d ∧ d ≤ (e : Int) ∧
      PathOK newString oldString e d p) ∧
  (∃ d p, bp d = some p ∧ PathOK newString oldString e d p ∧
      distSuffix newString oldString (sumOld p.components) (sumNew p.components) + e =
        dist oldString newString)

/-- State of the best-path table in the middle of the pass of edit length `e`,
when the diagonals smaller than `m` have been processed: surviving entries from
the previous pass sit at diagonals of the opposite parity at `m - 1` or above,
freshly written entries sit below `m`, and the optimal-path tracking is either
still pending at an unprocessed diagonal or already established at a fresh
entry. -/
def MidState {α} [DecidableEq α] (newString oldString : List α) (e : Nat) (m : Int)
    (bp : Int → Option (SPath α)) : Prop :=
  (∀ d p, bp d = some p →
      ((d + (e : Int)) % 2 = 1 ∧ m - 1 ≤ d ∧ -(e : Int) + 1 ≤ d ∧ d ≤ (e : Int) - 1 ∧
        PathOK newString oldString (e - 1) d p) ∨
      ((d + (e : Int)) % 2 = 0 ∧ -(e : Int) ≤ d ∧ d < m ∧
        PathOK newString oldString e d p)) ∧
  ((∃ dstar, m ≤ dstar ∧ dstar ≤ (e : Int) ∧ (dstar + (e : Int)) % 2 = 0 ∧
      Pending newString oldString e bp dstar) ∨
   (∃ d p, bp d = some p ∧ (d + (e : Int)) % 2 = 0 ∧ d < m ∧
      PathOK newString oldString e d p ∧
      distSuffix newString oldString (sumOld p.components) (sumNew p.components) + e =
        dist oldString newString))

/-- The suffix of the diagonal list of a pass starting at index `k`. -/
def diagsFrom (e k : Nat) : List Int :=
  (List.range (e + 1 - k)).map (fun i => -(e : Int) + 2 * ((k + i : Nat) : Int))

/-- Outcome of one diagonal step under the pass invariants: either a finished
minimal script, or an updated table that cleared `d - 1`, left every other
diagonal except `d` unchanged, and stored at `d` either nothing or a valid
`e`-edit path. -/
def DiagOut {α : Type} [DecidableEq α] (newString oldString : List α) (e : Nat) (d : Int)
    (bp : Int → Option (SPath α)) : Prop :=
  (∃ res, execDiagonal newString oldString bp d = Sum.inl res ∧
    ResultOK newString oldString e res) ∨
  (∃ bp2, execDiagonal newString oldString bp d = Sum.inr bp2 ∧
    bp2 (d - 1) = none ∧ (∀ k, k ≠ d → k ≠ d - 1 → bp2 k = bp k) ∧
    (bp2 d = none ∨ ∃ p2, bp2 d = some p2 ∧ PathOK newString oldString e d p2))

/-- Outcome of one diagonal step at a pending diagonal: as `DiagOut`, but a
stored path is guaranteed and lies on an optimal route to the end. -/
def DiagOutPending {α : Type} [DecidableEq α] (newString oldString : List α) (e : Nat)
    (d : Int) (bp : Int → Option (SPath α)) : Prop :=
  (∃ res, execDiagonal newString oldString bp d = Sum.inl res ∧
    ResultOK newString oldString e res) ∨
  (∃ bp2 p2, execDiagonal newString oldString bp d = Sum.inr bp2 ∧
    bp2 (d - 1) = none ∧ (∀ k, k ≠ d → k ≠ d - 1 → bp2 k = bp k) ∧
    bp2 d = some p2 ∧ PathOK newString oldString e d p2 ∧
    distSuffix newString oldString (sumOld p2.components) (sumNew p2.components) + e =
      dist oldString newString)

/-- Everything known about the path built by one branch step of the diagonal
loop: the branch entered the diagonal `d` at the point that has consumed `j1`
elements of the new sequence and `i1` of the old one, and was then extended by
the maximal snake of length `s`. -/
def StepOK {α : Type} [DecidableEq α] (newString oldString : List α) (e : Nat) (d : Int)
    (j1 i1 : Nat) (ec : SPath α × Int) : Prop :=
  ∃ s, s = lcpLength (newString.drop j1) (oldString.drop i1) ∧
    sumNew ec.1.components = j1 + s ∧ sumOld ec.1.components = i1 + s ∧
    editSum ec.1.components = e ∧
    ec.1.newPos = ((j1 + s : Nat) : Int) - 1 ∧
    ec.2 = ((i1 + s : Nat) : Int) - 1 ∧
    (j1 : Int) - (i1 : Int) = d ∧
    alignedB newString oldString ec.1.components 0 0 = true ∧
    j1 + s ≤ newString.length ∧ i1 + s ≤ oldString.length ∧
    lcpLength (newString.drop (j1 + s)) (oldString.drop (i1 + s)) = 0 ∧
    (∀ c ∈ ec.1.components, ∃ k, c.count = some k ∧ 1 ≤ k) ∧
    (∀ c ∈ ec.1.components, ¬ (c.added = true ∧ c.removed = true)) ∧
    List.Chain' (fun a b => ¬ sameKind a b) ec.1.components ∧
    (1 ≤ lcpLength newString oldString → ∃ rest, ec.1.components =
      Component.mk (some (lcpLength newString oldString)) false false [] :: rest) ∧
    distSuffix newString oldString (i1 + s) (j1 + s) =
      distSuffix newString oldString i1 j1

/-! Basic facts about the reference edit distance. -/

theorem dist_nil_left {α} [DecidableEq α] (v : List α) : dist [] v = v.length := by
  rw [dist]

theorem dist_nil_right {α} [DecidableEq α] (u : List α) : dist u [] = u.length := by
  cases u <;> rw [dist]

theorem dist_cons_cons {α} [DecidableEq α] (x y : α) (u v : List α) :
    dist (x :: u) (y :: v) =
      if x = y then dist u v else 1 + min (dist (x :: u) v) (dist u (y :: v)) := by
  rw [dist]

theorem dist_five {α} [DecidableEq α] :
    ∀ n (u v : List α), u.length + v.length ≤ n →
      (∀ y, dist u (y :: v) ≤ 1 + dist u v) ∧
      (∀ x, dist (x :: u) v ≤ 1 + dist u v) ∧
      (∀ x, dist u v ≤ 1 + dist (x :: u) v) ∧
      (∀ y, dist u v ≤ 1 + dist u (y :: v)) ∧
      (∀ x y, dist u v ≤ dist (x :: u) (y :: v)) := by
  intro n
  induction n with
  | zero =>
    intro u v h
    have hu : u = [] := by cases u <;> simp_all
    have hv : v = [] := by cases v <;> simp_all
    subst hu; subst hv
    refine ⟨fun y => ?_, fun x => ?_, fun x => ?_, fun y => ?_, fun x y => ?_⟩ <;>
      simp [dist_nil_left, dist_nil_right]
  | succ n ih =>
    intro u v h
    have A : ∀ y, dist u (y :: v) ≤ 1 + dist u v := by
      intro y
      cases u with
      | nil => simp only [dist_nil_left, List.length_cons]; omega
      | cons x u' =>
        rw [dist_cons_cons]
        by_cases hxy : x = y
        · rw [if_pos hxy]
          have hsz : u'.length + v.length ≤ n := by simp at h; omega
          exact (ih u' v hsz).2.2.1 x
        · rw [if_neg hxy]
          have := Nat.min_le_left (dist (x :: u') v) (dist u' (y :: v))
          omega
    have B : ∀ x, dist (x :: u) v ≤ 1 + dist u v := by
      intro x
      cases v with
      | nil => simp only [dist_nil_right, List.length_cons]; omega
      | cons y v' =>
        rw [dist_cons_cons]
        by_cases hxy : x = y
        · rw [if_pos hxy]
          have hsz : u.length + v'.length ≤ n := by simp at h; omega
          exact (ih u v' hsz).2.2.2.1 y
        · rw [if_neg hxy]
          have := Nat.min_le_right (dist (x :: u) v') (dist u (y :: v'))
          omega
    have Cl : ∀ x, dist u v ≤ 1 + dist (x :: u) v := by
      intro x
      cases v with
      | nil => simp [dist_nil_right]; omega
      | cons y v' =>
        rw [dist_cons_cons]
        have hsz : u.length + v'.length ≤ n := by simp at h; omega
        by_cases hxy : x = y
        · rw [if_pos hxy]
          exact (ih u v' hsz).1 y
        · rw [if_neg hxy]
          have h1 : dist u (y :: v') ≤ 1 + dist u v' := (ih u v' hsz).1 y
          have h2 : dist u v' ≤ 1 + dist (x :: u) v' := (ih u v' hsz).2.2.1 x
          have h3 := Nat.min_le_left (dist (x :: u) v') (dist u (y :: v'))
          have h4 := Nat.min_le_right (dist (x :: u) v') (dist u (y :: v'))
          have h5 := Nat.le_min (a := dist u (y :: v')) (b := dist (x :: u) v')
            (c := dist u (y :: v'))
          omega
    have Cr : ∀ y, dist u v ≤ 1 + dist u (y :: v) := by
      intro y
      cases u with
      | nil => simp [dist_nil_left]; omega
      | cons x u' =>
        rw [dist_cons_cons]
        have hsz : u'.length + v.length ≤ n := by simp at h; omega
        by_cases hxy : x = y
        · rw [if_pos hxy]
          exact (ih u' v hsz).2.1 x
        · rw [if_neg hxy]
          have h1 : dist (x :: u') v ≤ 1 + dist u' v := (ih u' v hsz).2.1 x
          have h2 : dist u' v ≤ 1 + dist u' (y :: v) := (ih u' v hsz).2.2.2.1 y
          have h3 := Nat.min_le_left (dist (x :: u') v) (dist u' (y :: v))
          have h4 := Nat.min_le_right (dist (x :: u') v) (dist u' (y :: v))
          omega
    have D : ∀ x y, dist u v ≤ dist (x :: u) (y :: v) := by
      intro x y
      rw [dist_cons_cons]
      by_cases hxy : x = y
      · rw [if_pos hxy]
      · rw [if_neg hxy]
        have h1 := Cl x
        have h2 := Cr y
        have h3 := Nat.min_le_left (dist (x :: u) v) (dist u (y :: v))
        have h4 := Nat.min_le_right (dist (x :: u) v) (dist u (y :: v))
        omega
    exact ⟨A, B, Cl, Cr, D⟩

theorem dist_ins_right {α} [DecidableEq α] (u v : List α) (y : α) :
    dist u (y :: v) ≤ 1 + dist u v :=
  (dist_five (u.length + v.length) u v le_rfl).1 y

theorem dist_ins_left {α} [DecidableEq α] (u v : List α) (x : α) :
    dist (x :: u) v ≤ 1 + dist u v :=
  (dist_five (u.length + v.length) u v le_rfl).2.1 x

theorem dist_mono_diag {α} [DecidableEq α] (u v : List α) (x y : α) :
    dist u v ≤ dist (x :: u) (y :: v) :=
  (dist_five (u.length + v.length) u v le_rfl).2.2.2.2 x y

theorem dist_self {α} [DecidableEq α] (u : List α) : dist u u = 0 := by
  induction u with
  | nil => simp [dist_nil_left]
  | cons x u ih => rw [dist_cons_cons, if_pos rfl]; exact ih

theorem dist_eq_zero {α} [DecidableEq α] :
    ∀ u v : List α, dist u v = 0 → u = v := by
  intro u
  induction u with
  | nil =>
    intro v h
    rw [dist_nil_left] at h
    exact (List.length_eq_zero.mp h).symm
  | cons x u ih =>
    intro v h
    cases v with
    | nil => rw [dist_nil_right] at h; simp at h
    | cons y v =>
      rw [dist_cons_cons] at h
      by_cases hxy : x = y
      · rw [if_pos hxy] at h
        rw [hxy, ih v h]
      · rw [if_neg hxy] at h; omega

theorem dist_le_lengths {α} [DecidableEq α] :
    ∀ u v : List α, dist u v ≤ u.length + v.length := by
  intro u
  induction u with
  | nil => intro v; rw [dist_nil_left]; omega
  | cons x u ih =>
    intro v
    cases v with
    | nil => rw [dist_nil_right]; omega
    | cons y v =>
      rw [dist_cons_cons]
      by_cases hxy : x = y
      · rw [if_pos hxy]
        have := ih v
        simp only [List.length_cons]; omega
      · rw [if_neg hxy]
        have h1 := ih (y :: v)
        have h2 := Nat.min_le_right (dist (x :: u) v) (dist u (y :: v))
        simp only [List.length_cons] at h1 ⊢; omega

theorem dist_append_same {α} [DecidableEq α] (p u v : List α) :
    dist (p ++ u) (p ++ v) = dist u v := by
  induction p with
  | nil => rfl
  | cons a p ih => simpa [dist_cons_cons] using ih

theorem dist_cancel_take {α} [DecidableEq α] (u v : List α) (k : Nat)
    (h : u.take k = v.take k) : dist u v = dist (u.drop k) (v.drop k) := by
  conv_lhs => rw [← List.take_append_drop k u, ← List.take_append_drop k v, h]
  exact dist_append_same _ _ _

theorem dist_drop_one {α} [DecidableEq α] (u v : List α) :
    dist (u.drop 1) (v.drop 1) ≤ dist u v := by
  cases u with
  | nil =>
    simp only [List.drop_nil, dist_nil_left]
    have := List.length_drop 1 v
    omega
  | cons x u =>
    cases v with
    | nil =>
      simp only [List.drop_nil, List.drop_succ_cons, List.drop_zero, dist_nil_right, List.length_cons]
      omega
    | cons y v => simpa using dist_mono_diag u v x y

theorem dist_drop_le {α} [DecidableEq α] (u v : List α) :
    ∀ t, dist (u.drop t) (v.drop t) ≤ dist u v := by
  intro t
  induction t with
  | zero => simp
  | succ t ih =>
    have h1 : dist ((u.drop t).drop 1) ((v.drop t).drop 1) ≤ dist (u.drop t) (v.drop t) :=
      dist_drop_one _ _
    simpa [List.drop_drop, Nat.add_comm] using le_trans h1 ih

theorem dist_drop_left_le {α} [DecidableEq α] (v : List α) :
    ∀ (k : Nat) (u : List α), dist u v ≤ k + dist (u.drop k) v := by
  intro k
  induction k with
  | zero => intro u; simp
  | succ k ih =>
    intro u
    cases u with
    | nil => simp only [List.drop_nil]; have := ih ([] : List α); simp only [List.drop_nil] at this; omega
    | cons x u =>
      have h1 : dist (x :: u) v ≤ 1 + dist u v := dist_ins_left u v x
      have h2 : dist u v ≤ k + dist (u.drop k) v := ih u
      simp only [List.drop_succ_cons]
      omega

theorem dist_drop_right_le {α} [DecidableEq α] (u : List α) :
    ∀ (k : Nat) (v : List α), dist u v ≤ k + dist u (v.drop k) := by
  intro k
  induction k with
  | zero => intro v; simp
  | succ k ih =>
    intro v
    cases v with
    | nil => simp only [List.drop_nil]; have := ih ([] : List α); simp only [List.drop_nil] at this; omega
    | cons y v =>
      have h1 : dist u (y :: v) ≤ 1 + dist u v := dist_ins_right u v y
      have h2 : dist u v ≤ k + dist u (v.drop k) := ih v
      simp only [List.drop_succ_cons]
      omega

/-! Facts about the longest common prefix. -/

theorem lcpLength_nil_left {α} [DecidableEq α] (v : List α) : lcpLength [] v = 0 := by
  cases v <;> rfl

theorem lcpLength_nil_right {α} [DecidableEq α] (u : List α) : lcpLength u [] = 0 := by
  cases u <;> rfl

theorem lcpLength_cons_cons {α} [DecidableEq α] (x y : α) (u v : List α) :
    lcpLength (x :: u) (y :: v) = if x = y then lcpLength u v + 1 else 0 := rfl

theorem lcpLength_le_left {α} [DecidableEq α] :
    ∀ u v : List α, lcpLength u v ≤ u.length := by
  intro u
  induction u with
  | nil => intro v; rw [lcpLength_nil_left]; omega
  | cons x u ih =>
    intro v
    cases v with
    | nil => rw [lcpLength_nil_right]; omega
    | cons y v =>
      rw [lcpLength_cons_cons]
      by_cases hxy : x = y
      · rw [if_pos hxy]; have := ih v; simp; omega
      · rw [if_neg hxy]; omega

theorem lcpLength_le_right {α} [DecidableEq α] :
    ∀ u v : List α, lcpLength u v ≤ v.length := by
  intro u
  induction u with
  | nil => intro v; rw [lcpLength_nil_left]; omega
  | cons x u ih =>
    intro v
    cases v with
    | nil => rw [lcpLength_nil_right]; omega
    | cons y v =>
      rw [lcpLength_cons_cons]
      by_cases hxy : x = y
      · rw [if_pos hxy]; have := ih v; simp; omega
      · rw [if_neg hxy]; omega

theorem lcpLength_take {α} [DecidableEq α] :
    ∀ u v : List α, u.take (lcpLength u v) = v.take (lcpLength u v) := by
  intro u
  induction u with
  | nil => intro v; rw [lcpLength_nil_left]; simp
  | cons x u ih =>
    intro v
    cases v with
    | nil => rw [lcpLength_nil_right]; simp
    | cons y v =>
      rw [lcpLength_cons_cons]
      by_cases hxy : x = y
      · rw [if_pos hxy]
        simp only [List.take_succ_cons]
        rw [hxy, ih v]
      · rw [if_neg hxy]; simp

theorem lcpLength_drop {α} [DecidableEq α] :
    ∀ u v : List α, lcpLength (u.drop (lcpLength u v)) (v.drop (lcpLength u v)) = 0 := by
  intro u
  induction u with
  | nil => intro v; rw [lcpLength_nil_left]; simp [lcpLength_nil_left]
  | cons x u ih =>
    intro v
    cases v with
    | nil => rw [lcpLength_nil_right]; simp [lcpLength_nil_right]
    | cons y v =>
      rw [lcpLength_cons_cons]
      by_cases hxy : x = y
      · rw [if_pos hxy]
        simpa using ih v
      · rw [if_neg hxy]
        simp only [List.drop_zero]
        rw [lcpLength_cons_cons, if_neg hxy]

theorem lcpLength_zero_head {α} [DecidableEq α] (x y : α) (u v : List α)
    (h : lcpLength (x :: u) (y :: v) = 0) : ¬ x = y := by
  intro hxy
  rw [lcpLength_cons_cons, if_pos hxy] at h
  omega

theorem dist_cancel_lcp {α} [DecidableEq α] (u v : List α) :
    dist u v = dist (u.drop (lcpLength u v)) (v.drop (lcpLength u v)) :=
  dist_cancel_take u v (lcpLength u v) (lcpLength_take u v)

/-! The snake of `extractCommon` computes the longest common prefix of the
unconsumed suffixes. -/

theorem jsIndex_nat {α} (l : List α) (j : Nat) (h : j < l.length) :
    jsIndex l (j : Int) = some (l.get ⟨j, h⟩) := by
  have hcond : 0 ≤ (j : Int) ∧ (j : Int) < (l.length : Int) :=
    ⟨Int.natCast_nonneg j, by exact_mod_cast h⟩
  rw [jsIndex, dif_pos hcond]
  simp only [Int.toNat_natCast]

theorem snakeLen_eq_aux {α} [DecidableEq α] (newString oldString : List α) :
    ∀ t j i, newString.length - j ≤ t → j ≤ newString.length → i ≤ oldString.length →
      snakeLen newString oldString ((j : Int) - 1) ((i : Int) - 1) =
        lcpLength (newString.drop j) (oldString.drop i) := by
  intro t
  induction t with
  | zero =>
    intro j i ht hj hi
    have hj' : j = newString.length := by omega
    rw [snakeLen, if_neg]
    · rw [List.drop_eq_nil_of_le (by omega), lcpLength_nil_left]
    · rintro ⟨h1, -, -⟩
      omega
  | succ t ih =>
    intro j i ht hj hi
    rw [snakeLen]
    by_cases hjl : j < newString.length
    · by_cases hil : i < oldString.length
      · have e1 : (j : Int) - 1 + 1 = ((j : Nat) : Int) := by ring
        have e2 : (i : Int) - 1 + 1 = ((i : Nat) : Int) := by ring
        have hji : jsIndex newString ((j : Int) - 1 + 1) = some (newString.get ⟨j, hjl⟩) := by
          rw [e1, jsIndex_nat newString j hjl]
        have hii : jsIndex oldString ((i : Int) - 1 + 1) = some (oldString.get ⟨i, hil⟩) := by
          rw [e2, jsIndex_nat oldString i hil]
        have hdn : newString.drop j = newString.get ⟨j, hjl⟩ :: newString.drop (j + 1) := by
          rw [List.drop_eq_getElem_cons hjl]; rfl
        have hdo : oldString.drop i = oldString.get ⟨i, hil⟩ :: oldString.drop (i + 1) := by
          rw [List.drop_eq_getElem_cons hil]; rfl
        by_cases heq : newString.get ⟨j, hjl⟩ = oldString.get ⟨i, hil⟩
        · rw [if_pos]
          · have e3 : (j : Int) - 1 + 1 = ((j + 1 : Nat) : Int) - 1 := by omega
            have e4 : (i : Int) - 1 + 1 = ((i + 1 : Nat) : Int) - 1 := by omega
            rw [e3, e4, ih (j + 1) (i + 1) (by omega) (by omega) (by omega)]
            rw [hdn, hdo, lcpLength_cons_cons, if_pos heq]
          · refine ⟨by omega, by omega, ?_⟩
            rw [hji, hii]
            simp only [jsEq, decide_eq_true_eq]
            exact heq
        · rw [if_neg]
          · rw [hdn, hdo, lcpLength_cons_cons, if_neg heq]
          · rintro ⟨-, -, hc⟩
            rw [hji, hii] at hc
            simp only [jsEq, decide_eq_true_eq] at hc
            exact heq hc
      · rw [if_neg, List.drop_eq_nil_of_le (show oldString.length ≤ i by omega),
          lcpLength_nil_right]
        rintro ⟨-, h2, -⟩
        omega
    · rw [if_neg, List.drop_eq_nil_of_le (show newString.length ≤ j by omega),
        lcpLength_nil_left]
      rintro ⟨h1, -, -⟩
      omega

theorem snakeLen_eq {α} [DecidableEq α] (newString oldString : List α) (j i : Nat)
    (hj : j ≤ newString.length) (hi : i ≤ oldString.length) :
    snakeLen newString oldString ((j : Int) - 1) ((i : Int) - 1) =
      lcpLength (newString.drop j) (oldString.drop i) :=
  snakeLen_eq_aux newString oldString (newString.length - j) j i le_rfl hj hi

/-! Arithmetic of component sums and the alignment predicate. -/

theorem sumNew_nil {α} : sumNew ([] : List (Component α)) = 0 := rfl

theorem sumOld_nil {α} : sumOld ([] : List (Component α)) = 0 := rfl

theorem editSum_nil {α} : editSum ([] : List (Component α)) = 0 := rfl

theorem sumNew_cons {α} (c : Component α) (cs : List (Component α)) :
    sumNew (c :: cs) = (if c.removed then 0 else cnt c) + sumNew cs := by
  simp [sumNew]

theorem sumOld_cons {α} (c : Component α) (cs : List (Component α)) :
    sumOld (c :: cs) = (if c.removed then cnt c else if c.added then 0 else cnt c) +
      sumOld cs := by
  simp [sumOld]

theorem editSum_cons {α} (c : Component α) (cs : List (Component α)) :
    editSum (c :: cs) = (if c.added || c.removed then cnt c else 0) + editSum cs := by
  simp [editSum]

theorem sumNew_append {α} (cs ds : List (Component α)) :
    sumNew (cs ++ ds) = sumNew cs + sumNew ds := by
  simp [sumNew]

theorem sumOld_append {α} (cs ds : List (Component α)) :
    sumOld (cs ++ ds) = sumOld cs + sumOld ds := by
  simp [sumOld]

theorem editSum_append {α} (cs ds : List (Component α)) :
    editSum (cs ++ ds) = editSum cs + editSum ds := by
  simp [editSum]

theorem alignedB_cons_eq {α} [DecidableEq α] (newString oldString : List α)
    (c : Component α) (cs : List (Component α)) (np op : Nat) :
    alignedB newString oldString (c :: cs) np op =
      (if c.removed then alignedB newString oldString cs np (op + cnt c)
      else if c.added then alignedB newString oldString cs (np + cnt c) op
      else
        decide ((newString.drop np).take (cnt c) = (oldString.drop op).take (cnt c)) &&
          alignedB newString oldString cs (np + cnt c) (op + cnt c)) := by
  rw [alignedB]

theorem alignedB_cons_removed {α} [DecidableEq α] (newString oldString : List α)
    (c : Component α) (cs : List (Component α)) (np op : Nat) (hr : c.removed = true) :
    alignedB newString oldString (c :: cs) np op =
      alignedB newString oldString cs np (op + cnt c) := by
  rw [alignedB_cons_eq, if_pos hr]

theorem alignedB_cons_added {α} [DecidableEq α] (newString oldString : List α)
    (c : Component α) (cs : List (Component α)) (np op : Nat) (hr : c.removed = false)
    (ha : c.added = true) :
    alignedB newString oldString (c :: cs) np op =
      alignedB newString oldString cs (np + cnt c) op := by
  rw [alignedB_cons_eq, if_neg (by simp [hr]), if_pos ha]

theorem alignedB_cons_common {α} [DecidableEq α] (newString oldString : List α)
    (c : Component α) (cs : List (Component α)) (np op : Nat) (hr : c.removed = false)
    (ha : c.added = false) :
    alignedB newString oldString (c :: cs) np op =
      (decide ((newString.drop np).take (cnt c) = (oldString.drop op).take (cnt c)) &&
        alignedB newString oldString cs (np + cnt c) (op + cnt c)) := by
  rw [alignedB_cons_eq, if_neg (by simp [hr]), if_neg (by simp [ha])]

theorem sumNew_cons_removed {α} (c : Component α) (cs : List (Component α))
    (hr : c.removed = true) : sumNew (c :: cs) = sumNew cs := by
  rw [sumNew_cons, if_pos hr]; omega

theorem sumNew_cons_live {α} (c : Component α) (cs : List (Component α))
    (hr : c.removed = false) : sumNew (c :: cs) = cnt c + sumNew cs := by
  rw [sumNew_cons, if_neg (by simp [hr])]

theorem sumOld_cons_removed {α} (c : Component α) (cs : List (Component α))
    (hr : c.removed = true) : sumOld (c :: cs) = cnt c + sumOld cs := by
  rw [sumOld_cons, if_pos hr]

theorem sumOld_cons_added {α} (c : Component α) (cs : List (Component α))
    (hr : c.removed = false) (ha : c.added = true) : sumOld (c :: cs) = sumOld cs := by
  rw [sumOld_cons, if_neg (by simp [hr]), if_pos ha]; omega

theorem sumOld_cons_common {α} (c : Component α) (cs : List (Component α))
    (hr : c.removed = false) (ha : c.added = false) :
    sumOld (c :: cs) = cnt c + sumOld cs := by
  rw [sumOld_cons, if_neg (by simp [hr]), if_neg (by simp [ha])]

theorem alignedB_append {α} [DecidableEq α] (newString oldString : List α)
    (cs ds : List (Component α)) : ∀ np op,
    alignedB newString oldString (cs ++ ds) np op =
      (alignedB newString oldString cs np op &&
        alignedB newString oldString ds (np + sumNew cs) (op + sumOld cs)) := by
  induction cs with
  | nil =>
    intro np op
    simp [alignedB, sumNew_nil, sumOld_nil]
  | cons c cs ih =>
    intro np op
    rw [List.cons_append]
    cases hr : c.removed with
    | true =>
      rw [alignedB_cons_removed _ _ _ _ _ _ hr, alignedB_cons_removed _ _ _ _ _ _ hr,
        sumNew_cons_removed _ _ hr, sumOld_cons_removed _ _ hr, ih]
      have e1 : op + cnt c + sumOld cs = op + (cnt c + sumOld cs) := by omega
      rw [e1]
    | false =>
      cases ha : c.added with
      | true =>
        rw [alignedB_cons_added _ _ _ _ _ _ hr ha, alignedB_cons_added _ _ _ _ _ _ hr ha,
          sumNew_cons_live _ _ hr, sumOld_cons_added _ _ hr ha, ih]
        have e1 : np + cnt c + sumNew cs = np + (cnt c + sumNew cs) := by omega
        rw [e1]
      | false =>
        rw [alignedB_cons_common _ _ _ _ _ _ hr ha, alignedB_cons_common _ _ _ _ _ _ hr ha,
          sumNew_cons_live _ _ hr, sumOld_cons_common _ _ hr ha, ih]
        have e1 : np + cnt c + sumNew cs = np + (cnt c + sumNew cs) := by omega
        have e2 : op + cnt c + sumOld cs = op + (cnt c + sumOld cs) := by omega
        rw [e1, e2, Bool.and_assoc]

theorem alignedB_single_added {α} [DecidableEq α] (newString oldString : List α)
    (c : Component α) (np op : Nat) (h : c.added = true ∨ c.removed = true) :
    alignedB newString oldString [c] np op = true := by
  cases hr : c.removed with
  | true => rw [alignedB_cons_removed _ _ _ _ _ _ hr]; rfl
  | false =>
    have ha : c.added = true := by
      rcases h with h | h
      · exact h
      · rw [hr] at h; exact absurd h (by simp)
    rw [alignedB_cons_added _ _ _ _ _ _ hr ha]; rfl

/-! Behaviour of `pushComponent`. -/

theorem pushComponent_nil {α} (a r : Bool) :
    pushComponent ([] : List (Component α)) a r = [⟨some 1, a, r, []⟩] := rfl

theorem pushComponent_concat {α} (cs : List (Component α)) (l : Component α) (a r : Bool) :
    pushComponent (cs ++ [l]) a r =
      if l.added = a ∧ l.removed = r then cs ++ [⟨some (cnt l + 1), a, r, []⟩]
      else (cs ++ [l]) ++ [⟨some 1, a, r, []⟩] := by
  rw [pushComponent, List.getLast?_concat]
  simp only [List.dropLast_concat]

theorem kinds_nil {α} : kinds ([] : List (Component α)) = [] := rfl

theorem kinds_cons {α} (c : Component α) (cs : List (Component α)) :
    kinds (c :: cs) = (c.added, c.removed) :: kinds cs := rfl

theorem kinds_append {α} (cs ds : List (Component α)) :
    kinds (cs ++ ds) = kinds cs ++ kinds ds := by
  simp [kinds]

theorem kinds_push {α} (cs : List (Component α)) (a r : Bool) :
    kinds (pushComponent cs a r) =
      if (kinds cs).getLast? = some (a, r) then kinds cs
      else kinds cs ++ [(a, r)] := by
  rcases List.eq_nil_or_concat cs with hcs | ⟨cs', l, rfl⟩
  any_goals simp only [List.concat_eq_append] at *
  · subst hcs
    rw [pushComponent_nil]
    simp [kinds]
  · have hlast : (kinds (cs' ++ [l])).getLast? = some (l.added, l.removed) := by
      rw [kinds_append]
      have hk1 : kinds [l] = [(l.added, l.removed)] := rfl
      rw [hk1, List.getLast?_concat]
    rw [pushComponent_concat, hlast]
    by_cases hk : l.added = a ∧ l.removed = r
    · rw [if_pos hk, if_pos (by rw [hk.1, hk.2]), kinds_append, kinds_append]
      have h1 : kinds [(⟨some (cnt l + 1), a, r, []⟩ : Component α)] = [(a, r)] := rfl
      have h2 : kinds [l] = [(l.added, l.removed)] := rfl
      rw [h1, h2, hk.1, hk.2]
    · rw [if_neg hk, if_neg ?_, kinds_append, kinds_append]
      · have h1 : kinds [(⟨some 1, a, r, []⟩ : Component α)] = [(a, r)] := rfl
        rw [h1]
      · intro hcon
        simp only [Option.some_inj, Prod.mk.injEq] at hcon
        exact hk hcon

theorem sums_push_add {α} (cs : List (Component α))
    (hcounts : ∀ c ∈ cs, ∃ k, c.count = some k ∧ 1 ≤ k) :
    sumNew (pushComponent cs true false) = sumNew cs + 1 ∧
    sumOld (pushComponent cs true false) = sumOld cs ∧
    editSum (pushComponent cs true false) = editSum cs + 1 := by
  rcases List.eq_nil_or_concat cs with hcs | ⟨cs', l, rfl⟩
  any_goals simp only [List.concat_eq_append] at *
  · subst hcs
    refine ⟨?_, ?_, ?_⟩ <;> simp [pushComponent_nil, sumNew, sumOld, editSum, cnt]
  · rw [pushComponent_concat]
    by_cases hk : l.added = true ∧ l.removed = false
    · rw [if_pos hk]
      have hcnt : cnt (⟨some (cnt l + 1), true, false, []⟩ : Component α) = cnt l + 1 := by
        simp [cnt]
      refine ⟨?_, ?_, ?_⟩ <;>
        simp [sumNew_append, sumOld_append, editSum_append, sumNew_cons, sumOld_cons,
          editSum_cons, sumNew_nil, sumOld_nil, editSum_nil, hk.1, hk.2, hcnt] <;> omega
    · rw [if_neg hk]
      have hcnt : cnt (⟨some 1, true, false, []⟩ : Component α) = 1 := by simp [cnt]
      refine ⟨?_, ?_, ?_⟩ <;>
        simp [sumNew_append, sumOld_append, editSum_append, sumNew_cons, sumOld_cons,
          editSum_cons, sumNew_nil, sumOld_nil, editSum_nil, hcnt] <;> omega

theorem sums_push_rem {α} (cs : List (Component α))
    (hcounts : ∀ c ∈ cs, ∃ k, c.count = some k ∧ 1 ≤ k) :
    sumNew (pushComponent cs false true) = sumNew cs ∧
    sumOld (pushComponent cs false true) = sumOld cs + 1 ∧
    editSum (pushComponent cs false true) = editSum cs + 1 := by
  rcases List.eq_nil_or_concat cs with hcs | ⟨cs', l, rfl⟩
  any_goals simp only [List.concat_eq_append] at *
  · subst hcs
    refine ⟨?_, ?_, ?_⟩ <;> simp [pushComponent_nil, sumNew, sumOld, editSum, cnt]
  · rw [pushComponent_concat]
    by_cases hk : l.added = false ∧ l.removed = true
    · rw [if_pos hk]
      have hcnt : cnt (⟨some (cnt l + 1), false, true, []⟩ : Component α) = cnt l + 1 := by
        simp [cnt]
      refine ⟨?_, ?_, ?_⟩ <;>
        simp [sumNew_append, sumOld_append, editSum_append, sumNew_cons, sumOld_cons,
          editSum_cons, sumNew_nil, sumOld_nil, editSum_nil, hk.1, hk.2, hcnt] <;> omega
    · rw [if_neg hk]
      have hcnt : cnt (⟨some 1, false, true, []⟩ : Component α) = 1 := by simp [cnt]
      refine ⟨?_, ?_, ?_⟩ <;>
        simp [sumNew_append, sumOld_append, editSum_append, sumNew_cons, sumOld_cons,
          editSum_cons, sumNew_nil, sumOld_nil, editSum_nil, hcnt] <;> omega

theorem alignedB_push {α} [DecidableEq α] (newString oldString : List α)
    (cs : List (Component α)) (a r : Bool) (h : a = true ∨ r = true) (np op : Nat) :
    alignedB newString oldString (pushComponent cs a r) np op =
      alignedB newString oldString cs np op := by
  rcases List.eq_nil_or_concat cs with hcs | ⟨cs', l, rfl⟩
  any_goals simp only [List.concat_eq_append] at *
  · subst hcs
    rw [pushComponent_nil, alignedB_single_added _ _ _ _ _ h]
    rfl
  · rw [pushComponent_concat]
    by_cases hk : l.added = a ∧ l.removed = r
    · rw [if_pos hk, alignedB_append, alignedB_append,
        alignedB_single_added _ _ _ _ _ h,
        alignedB_single_added _ _ _ _ _ (by rw [hk.1, hk.2]; exact h)]
    · rw [if_neg hk, alignedB_append _ _ (cs' ++ [l]),
        alignedB_single_added _ _ _ _ _ h, Bool.and_true]

theorem counts_push {α} (cs : List (Component α)) (a r : Bool)
    (hcounts : ∀ c ∈ cs, ∃ k, c.count = some k ∧ 1 ≤ k) :
    ∀ c ∈ pushComponent cs a r, ∃ k, c.count = some k ∧ 1 ≤ k := by
  rcases List.eq_nil_or_concat cs with hcs | ⟨cs', l, rfl⟩
  any_goals simp only [List.concat_eq_append] at *
  · subst hcs
    rw [pushComponent_nil]
    rintro c hc
    simp only [List.mem_singleton] at hc
    subst hc
    exact ⟨1, rfl, le_rfl⟩
  · rw [pushComponent_concat]
    by_cases hk : l.added = a ∧ l.removed = r
    · rw [if_pos hk]
      intro c hc
      rcases List.mem_append.mp hc with hc | hc
      · exact hcounts c (List.mem_append.mpr (Or.inl hc))
      · simp only [List.mem_singleton] at hc
        subst hc
        exact ⟨cnt l + 1, rfl, by omega⟩
    · rw [if_neg hk]
      intro c hc
      rcases List.mem_append.mp hc with hc | hc
      · exact hcounts c hc
      · simp only [List.mem_singleton] at hc
        subst hc
        exact ⟨1, rfl, le_rfl⟩

theorem flags_push {α} (cs : List (Component α)) (a r : Bool)
    (hex : ¬ (a = true ∧ r = true))
    (hflags : ∀ c ∈ cs, ¬ (c.added = true ∧ c.removed = true)) :
    ∀ c ∈ pushComponent cs a r, ¬ (c.added = true ∧ c.removed = true) := by
  rcases List.eq_nil_or_concat cs with hcs | ⟨cs', l, rfl⟩
  any_goals simp only [List.concat_eq_append] at *
  · subst hcs
    rw [pushComponent_nil]
    rintro c hc
    simp only [List.mem_singleton] at hc
    subst hc
    exact hex
  · rw [pushComponent_concat]
    by_cases hk : l.added = a ∧ l.removed = r
    · rw [if_pos hk]
      intro c hc
      rcases List.mem_append.mp hc with hc | hc
      · exact hflags c (List.mem_append.mpr (Or.inl hc))
      · simp only [List.mem_singleton] at hc
        subst hc
        exact hex
    · rw [if_neg hk]
      intro c hc
      rcases List.mem_append.mp hc with hc | hc
      · exact hflags c hc
      · simp only [List.mem_singleton] at hc
        subst hc
        exact hex

theorem head_push {α} (h : Component α) (t : List (Component α)) (a r : Bool)
    (hne : ¬ (h.added = a ∧ h.removed = r) ∨ t ≠ []) :
    ∃ t2, pushComponent (h :: t) a r = h :: t2 := by
  rcases List.eq_nil_or_concat t with ht | ⟨t', l, rfl⟩
  any_goals simp only [List.concat_eq_append] at *
  · subst ht
    have : h :: ([] : List (Component α)) = [] ++ [h] := rfl
    rw [this, pushComponent_concat]
    rcases hne with hne | hne
    · rw [if_neg hne]
      exact ⟨_, rfl⟩
    · exact absurd rfl hne
  · have hsplit : h :: (t' ++ [l]) = (h :: t') ++ [l] := by simp
    rw [hsplit, pushComponent_concat]
    by_cases hk : l.added = a ∧ l.removed = r
    · rw [if_pos hk]
      exact ⟨t' ++ [⟨some (cnt l + 1), a, r, []⟩], by simp⟩
    · rw [if_neg hk]
      exact ⟨t' ++ [l] ++ [⟨some 1, a, r, []⟩], by simp⟩

/-! Chain conditions expressed through the flag pairs. -/

theorem chain_kinds {α} (cs : List (Component α)) :
    List.Chain' (fun a b => ¬ sameKind a b) cs ↔
      List.Chain' (fun x y => x ≠ y) (kinds cs) := by
  rw [kinds, List.chain'_map]
  constructor <;> intro h <;> refine h.imp ?_ <;> intro a b hab
  · intro heq
    exact hab ⟨congrArg Prod.fst heq, congrArg Prod.snd heq⟩
  · intro heq
    exact hab (by rw [heq.1, heq.2])

theorem chain_concat_ne {β} (l : List β) (x : β) (hch : List.Chain' (fun p q => p ≠ q) l)
    (hlast : l.getLast? ≠ some x) : List.Chain' (fun p q => p ≠ q) (l ++ [x]) := by
  rw [List.chain'_append]
  refine ⟨hch, List.chain'_singleton x, ?_⟩
  intro z hz y hy
  simp only [List.head?_cons, Option.mem_def, Option.some_inj] at hy
  subst hy
  intro hcon
  subst hcon
  exact hlast hz

theorem chain_push {α} (cs : List (Component α)) (a r : Bool)
    (hch : List.Chain' (fun p q => ¬ sameKind p q) cs) :
    List.Chain' (fun p q => ¬ sameKind p q) (pushComponent cs a r) := by
  rw [chain_kinds, kinds_push]
  by_cases hk : (kinds cs).getLast? = some (a, r)
  · rw [if_pos hk]
    exact (chain_kinds cs).mp hch
  · rw [if_neg hk]
    exact chain_concat_ne _ _ ((chain_kinds cs).mp hch) hk

/-! The `extractCommon` step in consumed coordinates. -/

theorem extractCommon_spec {α} [DecidableEq α] (newString oldString : List α)
    (p : SPath α) (d : Int) (j i : Nat) (hnp : p.newPos = (j : Int) - 1)
    (hd : (j : Int) - (i : Int) = d) (hj : j ≤ newString.length)
    (hi : i ≤ oldString.length) :
    extractCommon p newString oldString d =
      (⟨(j : Int) - 1 + lcpLength (newString.drop j) (oldString.drop i),
        if lcpLength (newString.drop j) (oldString.drop i) ≠ 0 then
          p.components ++
            [⟨some (lcpLength (newString.drop j) (oldString.drop i)), false, false, []⟩]
        else p.components⟩,
      (i : Int) - 1 + lcpLength (newString.drop j) (oldString.drop i)) := by
  have hop : (j : Int) - 1 - d = (i : Int) - 1 := by omega
  have hsnake : snakeLen newString oldString ((j : Int) - 1) ((i : Int) - 1) =
      lcpLength (newString.drop j) (oldString.drop i) :=
    snakeLen_eq newString oldString j i hj hi
  simp only [extractCommon, hnp, hop, hsnake]

/-! Behaviour of `buildValues`. -/

theorem buildValues_nil {α} (newString oldString : List α) (np op : Nat) :
    buildValues ([] : List (Component α)) newString oldString np op = [] := rfl

theorem buildValues_removed {α} (newString oldString : List α) (c : Component α)
    (cs : List (Component α)) (np op : Nat) (hr : c.removed = true) :
    buildValues (c :: cs) newString oldString np op =
      ⟨c.count, c.added, c.removed, (oldString.drop op).take (cnt c)⟩ ::
        buildValues cs newString oldString np (op + cnt c) := by
  rw [buildValues, if_neg (by simp [hr])]

theorem buildValues_added {α} (newString oldString : List α) (c : Component α)
    (cs : List (Component α)) (np op : Nat) (hr : c.removed = false) (ha : c.added = true) :
    buildValues (c :: cs) newString oldString np op =
      ⟨c.count, c.added, c.removed, (newString.drop np).take (cnt c)⟩ ::
        buildValues cs newString oldString (np + cnt c) op := by
  rw [buildValues, if_pos hr, if_neg (by simp [ha])]

theorem buildValues_common {α} (newString oldString : List α) (c : Component α)
    (cs : List (Component α)) (np op : Nat) (hr : c.removed = false) (ha : c.added = false) :
    buildValues (c :: cs) newString oldString np op =
      ⟨c.count, c.added, c.removed, (newString.drop np).take (cnt c)⟩ ::
        buildValues cs newString oldString (np + cnt c) (op + cnt c) := by
  rw [buildValues, if_pos hr, if_pos ha]

theorem kinds_buildValues {α} (newString oldString : List α) :
    ∀ (cs : List (Component α)) (np op : Nat),
      kinds (buildValues cs newString oldString np op) = kinds cs := by
  intro cs
  induction cs with
  | nil => intro np op; rfl
  | cons c cs ih =>
    intro np op
    cases hr : c.removed with
    | true =>
      rw [buildValues_removed _ _ _ _ _ _ hr, kinds_cons, kinds_cons, ih]
    | false =>
      cases ha : c.added with
      | true => rw [buildValues_added _ _ _ _ _ _ hr ha, kinds_cons, kinds_cons, ih]
      | false => rw [buildValues_common _ _ _ _ _ _ hr ha, kinds_cons, kinds_cons, ih]

theorem editSum_buildValues {α} (newString oldString : List α) :
    ∀ (cs : List (Component α)) (np op : Nat),
      editSum (buildValues cs newString oldString np op) = editSum cs := by
  intro cs
  induction cs with
  | nil => intro np op; rfl
  | cons c cs ih =>
    intro np op
    have hcnt : ∀ v : List α, cnt (⟨c.count, c.added, c.removed, v⟩ : Component α) = cnt c :=
      fun v => rfl
    cases hr : c.removed with
    | true =>
      rw [buildValues_removed _ _ _ _ _ _ hr, editSum_cons, editSum_cons, ih]
      rfl
    | false =>
      cases ha : c.added with
      | true =>
        rw [buildValues_added _ _ _ _ _ _ hr ha, editSum_cons, editSum_cons, ih]
        rfl
      | false =>
        rw [buildValues_common _ _ _ _ _ _ hr ha, editSum_cons, editSum_cons, ih]
        rfl

theorem counts_buildValues {α} (newString oldString : List α) :
    ∀ (cs : List (Component α)) (np op : Nat),
      (∀ c ∈ cs, ∃ k, c.count = some k ∧ 1 ≤ k) →
      np + sumNew cs ≤ newString.length → op + sumOld cs ≤ oldString.length →
      ∀ c ∈ buildValues cs newString oldString np op,
        ∃ k, c.count = some k ∧ 1 ≤ k ∧ c.value.length = k := by
  intro cs
  induction cs with
  | nil => intro np op _ _ _ c hc; exact absurd hc (by simp [buildValues_nil])
  | cons c cs ih =>
    intro np op hcounts hjn hio c2 hc2
    obtain ⟨k, hk, hk1⟩ := hcounts c (by simp)
    have hcntc : cnt c = k := by simp [cnt, hk]
    cases hr : c.removed with
    | true =>
      rw [buildValues_removed _ _ _ _ _ _ hr] at hc2
      rw [sumOld_cons_removed _ _ hr] at hio
      rw [sumNew_cons_removed _ _ hr] at hjn
      rcases List.mem_cons.mp hc2 with hc2 | hc2
      · subst hc2
        refine ⟨k, hk, hk1, ?_⟩
        rw [hcntc]
        simp only [List.length_take, List.length_drop]
        omega
      · exact ih np (op + cnt c) (fun x hx => hcounts x (by simp [hx])) hjn (by omega) c2 hc2
    | false =>
      cases ha : c.added with
      | true =>
        rw [buildValues_added _ _ _ _ _ _ hr ha] at hc2
        rw [sumOld_cons_added _ _ hr ha] at hio
        rw [sumNew_cons_live _ _ hr] at hjn
        rcases List.mem_cons.mp hc2 with hc2 | hc2
        · subst hc2
          refine ⟨k, hk, hk1, ?_⟩
          rw [hcntc]
          simp only [List.length_take, List.length_drop]
          omega
        · exact ih (np + cnt c) op (fun x hx => hcounts x (by simp [hx])) (by omega) hio c2 hc2
      | false =>
        rw [buildValues_common _ _ _ _ _ _ hr ha] at hc2
        rw [sumOld_cons_common _ _ hr ha] at hio
        rw [sumNew_cons_live _ _ hr] at hjn
        rcases List.mem_cons.mp hc2 with hc2 | hc2
        · subst hc2
          refine ⟨k, hk, hk1, ?_⟩
          rw [hcntc]
          simp only [List.length_take, List.length_drop]
          omega
        · exact ih (np + cnt c) (op + cnt c) (fun x hx => hcounts x (by simp [hx]))
            (by omega) (by omega) c2 hc2

theorem nonRemovedConcat_nil {α} : nonRemovedConcat ([] : List (Component α)) = [] := rfl

theorem nonAddedConcat_nil {α} : nonAddedConcat ([] : List (Component α)) = [] := rfl

theorem nonRemovedConcat_cons {α} (c : Component α) (cs : List (Component α)) :
    nonRemovedConcat (c :: cs) =
      if c.removed then nonRemovedConcat cs else c.value ++ nonRemovedConcat cs := by
  cases hr : c.removed <;> simp [nonRemovedConcat, List.filter_cons, hr]

theorem nonAddedConcat_cons {α} (c : Component α) (cs : List (Component α)) :
    nonAddedConcat (c :: cs) =
      if c.added then nonAddedConcat cs else c.value ++ nonAddedConcat cs := by
  cases ha : c.added <;> simp [nonAddedConcat, List.filter_cons, ha]

theorem nonRemovedConcat_buildValues {α} (newString oldString : List α) :
    ∀ (cs : List (Component α)) (np op : Nat),
      nonRemovedConcat (buildValues cs newString oldString np op) =
        (newString.drop np).take (sumNew cs) := by
  intro cs
  induction cs with
  | nil => intro np op; simp [buildValues_nil, nonRemovedConcat_nil, sumNew_nil]
  | cons c cs ih =>
    intro np op
    cases hr : c.removed with
    | true =>
      rw [buildValues_removed _ _ _ _ _ _ hr, nonRemovedConcat_cons, if_pos hr, ih,
        sumNew_cons_removed _ _ hr]
    | false =>
      have key : ∀ op2, nonRemovedConcat
          (⟨c.count, c.added, c.removed, (newString.drop np).take (cnt c)⟩ ::
            buildValues cs newString oldString (np + cnt c) op2) =
          (newString.drop np).take (cnt c + sumNew cs) := by
        intro op2
        rw [nonRemovedConcat_cons, if_neg (by simp [hr]), ih]
        rw [List.take_add, ← List.drop_drop]
      cases ha : c.added with
      | true =>
        rw [buildValues_added _ _ _ _ _ _ hr ha, key, sumNew_cons_live _ _ hr]
      | false =>
        rw [buildValues_common _ _ _ _ _ _ hr ha, key, sumNew_cons_live _ _ hr]

theorem nonAddedConcat_buildValues {α} [DecidableEq α] (newString oldString : List α) :
    ∀ (cs : List (Component α)) (np op : Nat),
      alignedB newString oldString cs np op = true →
      (∀ c ∈ cs, ¬ (c.added = true ∧ c.removed = true)) →
      nonAddedConcat (buildValues cs newString oldString np op) =
        (oldString.drop op).take (sumOld cs) := by
  intro cs
  induction cs with
  | nil => intro np op _ _; simp [buildValues_nil, nonAddedConcat_nil, sumOld_nil]
  | cons c cs ih =>
    intro np op hal hfl
    cases hr : c.removed with
    | true =>
      have ha : c.added = false := by
        rcases Bool.eq_false_or_eq_true c.added with h | h
        · exact absurd ⟨h, hr⟩ (hfl c (by simp))
        · exact h
      rw [alignedB_cons_removed _ _ _ _ _ _ hr] at hal
      rw [buildValues_removed _ _ _ _ _ _ hr, nonAddedConcat_cons, if_neg (by simp [ha]),
        ih _ _ hal (fun x hx => hfl x (by simp [hx])), sumOld_cons_removed _ _ hr]
      rw [List.take_add, ← List.drop_drop]
    | false =>
      cases ha : c.added with
      | true =>
        rw [alignedB_cons_added _ _ _ _ _ _ hr ha] at hal
        rw [buildValues_added _ _ _ _ _ _ hr ha, nonAddedConcat_cons, if_pos ha,
          ih _ _ hal (fun x hx => hfl x (by simp [hx])), sumOld_cons_added _ _ hr ha]
      | false =>
        rw [alignedB_cons_common _ _ _ _ _ _ hr ha] at hal
        rw [Bool.and_eq_true, decide_eq_true_eq] at hal
        rw [buildValues_common _ _ _ _ _ _ hr ha, nonAddedConcat_cons, if_neg (by simp [ha]),
          ih _ _ hal.2 (fun x hx => hfl x (by simp [hx])), sumOld_cons_common _ _ hr ha]
        rw [hal.1, List.take_add, ← List.drop_drop]

/-! Any aligned component list is at least as costly as the edit distance of
what it consumes: the reference distance is a lower bound on every valid edit
script. -/

theorem dist_le_editSum {α} [DecidableEq α] (newString oldString : List α) :
    ∀ (cs : List (Component α)) (np op : Nat),
      alignedB newString oldString cs np op = true →
      dist (oldString.drop op) (newString.drop np) ≤
        editSum cs +
          dist (oldString.drop (op + sumOld cs)) (newString.drop (np + sumNew cs)) := by
  intro cs
  induction cs with
  | nil =>
    intro np op _
    simp [editSum_nil, sumNew_nil, sumOld_nil]
  | cons c cs ih =>
    intro np op hal
    cases hr : c.removed with
    | true =>
      rw [alignedB_cons_removed _ _ _ _ _ _ hr] at hal
      rw [sumOld_cons_removed _ _ hr, sumNew_cons_removed _ _ hr, editSum_cons, hr]
      have hif : (if (c.added || true) = true then cnt c else 0) = cnt c := by simp
      rw [hif]
      have h1 : dist (oldString.drop op) (newString.drop np) ≤
          cnt c + dist ((oldString.drop op).drop (cnt c)) (newString.drop np) :=
        dist_drop_left_le _ _ _
      have h2 := ih np (op + cnt c) hal
      rw [List.drop_drop] at h1
      have e2 : op + cnt c + sumOld cs = op + (cnt c + sumOld cs) := by omega
      rw [e2] at h2
      omega
    | false =>
      cases ha : c.added with
      | true =>
        rw [alignedB_cons_added _ _ _ _ _ _ hr ha] at hal
        rw [sumOld_cons_added _ _ hr ha, sumNew_cons_live _ _ hr, editSum_cons, ha]
        have hif : (if (true || c.removed) = true then cnt c else 0) = cnt c := by simp
        rw [hif]
        have h1 : dist (oldString.drop op) (newString.drop np) ≤
            cnt c + dist (oldString.drop op) ((newString.drop np).drop (cnt c)) :=
          dist_drop_right_le _ _ _
        have h2 := ih (np + cnt c) op hal
        rw [List.drop_drop] at h1
        have e2 : np + cnt c + sumNew cs = np + (cnt c + sumNew cs) := by omega
        rw [e2] at h2
        omega
      | false =>
        rw [alignedB_cons_common _ _ _ _ _ _ hr ha] at hal
        rw [Bool.and_eq_true, decide_eq_true_eq] at hal
        rw [sumOld_cons_common _ _ hr ha, sumNew_cons_live _ _ hr, editSum_cons, ha, hr]
        have hif : (if (false || false) = true then cnt c else 0) = 0 := by simp
        rw [hif]
        have h1 : dist (oldString.drop op) (newString.drop np) =
            dist ((oldString.drop op).drop (cnt c)) ((newString.drop np).drop (cnt c)) :=
          dist_cancel_take _ _ (cnt c) hal.1.symm
        have h2 := ih (np + cnt c) (op + cnt c) hal.2
        rw [List.drop_drop, List.drop_drop] at h1
        have e3 : np + cnt c + sumNew cs = np + (cnt c + sumNew cs) := by omega
        have e4 : op + cnt c + sumOld cs = op + (cnt c + sumOld cs) := by omega
        rw [e3, e4] at h2
        omega

/-! Distance bookkeeping for the search frontier. -/

theorem drop_drop_comm {α} (l : List α) (a b : Nat) :
    (l.drop a).drop b = l.drop (a + b) := by
  rw [List.drop_drop]

theorem distSuffix_shift {α} [DecidableEq α] (newString oldString : List α) (i j t : Nat) :
    distSuffix newString oldString (i + t) (j + t) ≤ distSuffix newString oldString i j := by
  unfold distSuffix
  have h := dist_drop_le (oldString.drop i) (newString.drop j) t
  rw [drop_drop_comm, drop_drop_comm] at h
  exact h

theorem distSuffix_snake {α} [DecidableEq α] (newString oldString : List α) (i j : Nat) :
    distSuffix newString oldString (i + lcpLength (newString.drop j) (oldString.drop i))
        (j + lcpLength (newString.drop j) (oldString.drop i)) =
      distSuffix newString oldString i j := by
  unfold distSuffix
  have h := dist_cancel_take (oldString.drop i) (newString.drop j)
    (lcpLength (newString.drop j) (oldString.drop i))
    (lcpLength_take (newString.drop j) (oldString.drop i)).symm
  rw [drop_drop_comm, drop_drop_comm] at h
  exact h.symm

theorem dist_move {α} [DecidableEq α] (u v : List α) (hd : 1 ≤ dist v u)
    (hmax : lcpLength u v = 0) :
    (u ≠ [] ∧ dist v (u.drop 1) + 1 = dist v u) ∨
    (v ≠ [] ∧ dist (v.drop 1) u + 1 = dist v u) := by
  cases u with
  | nil =>
    cases v with
    | nil => rw [dist_nil_right] at hd; simp at hd
    | cons y v' =>
      right
      refine ⟨by simp, ?_⟩
      rw [List.drop_one, List.tail_cons, dist_nil_right, dist_nil_right]
      rfl
  | cons x u' =>
    cases v with
    | nil =>
      left
      refine ⟨by simp, ?_⟩
      rw [List.drop_one, List.tail_cons, dist_nil_left, dist_nil_left]
      rfl
    | cons y v' =>
      have hxy : ¬ y = x := fun h => lcpLength_zero_head x y u' v' hmax h.symm
      rw [dist_cons_cons, if_neg hxy]
      rcases Nat.le_total (dist (y :: v') u') (dist v' (x :: u')) with hle | hle
      · left
        refine ⟨by simp, ?_⟩
        rw [List.drop_one, List.tail_cons, Nat.min_eq_left hle]
        omega
      · right
        refine ⟨by simp, ?_⟩
        rw [List.drop_one, List.tail_cons, Nat.min_eq_right hle]
        omega

theorem alignedB_single_common {α} [DecidableEq α] (newString oldString : List α)
    (s : Nat) (np op : Nat) :
    alignedB newString oldString [⟨some s, false, false, []⟩] np op =
      decide ((newString.drop np).take s = (oldString.drop op).take s) := by
  rw [alignedB_cons_common _ _ _ _ _ _ rfl rfl]
  have hc : cnt (⟨some s, false, false, []⟩ : Component α) = s := rfl
  rw [hc]
  exact Bool.and_true _

theorem kinds_push_getLast {α} (cs : List (Component α)) (a r : Bool) :
    (kinds (pushComponent cs a r)).getLast? = some (a, r) := by
  rw [kinds_push]
  by_cases hk : (kinds cs).getLast? = some (a, r)
  · rw [if_pos hk]
    exact hk
  · rw [if_neg hk, List.getLast?_concat]

/-! Extending a path by its maximal snake preserves the search invariants. -/

theorem sums_single_common {α} (s : Nat) :
    sumNew [(⟨some s, false, false, []⟩ : Component α)] = s ∧
    sumOld [(⟨some s, false, false, []⟩ : Component α)] = s ∧
    editSum [(⟨some s, false, false, []⟩ : Component α)] = 0 := by
  refine ⟨?_, ?_, ?_⟩ <;> simp [sumNew, sumOld, editSum, cnt]

theorem snake_extend {α} [DecidableEq α] (newString oldString : List α)
    (cs2 : List (Component α)) (j1 i1 e1 : Nat)
    (hsn : sumNew cs2 = j1) (hso : sumOld cs2 = i1) (hes : editSum cs2 = e1)
    (hal : alignedB newString oldString cs2 0 0 = true)
    (hj : j1 ≤ newString.length) (hi : i1 ≤ oldString.length)
    (hcounts : ∀ c ∈ cs2, ∃ k, c.count = some k ∧ 1 ≤ k)
    (hflags : ∀ c ∈ cs2, ¬ (c.added = true ∧ c.removed = true))
    (hchain : List.Chain' (fun a b => ¬ sameKind a b) cs2)
    (hlastne : (kinds cs2).getLast? ≠ some (false, false)) :
    ∀ s, s = lcpLength (newString.drop j1) (oldString.drop i1) →
    ∀ cs3 : List (Component α),
      cs3 = (if s ≠ 0 then cs2 ++ [⟨some s, false, false, []⟩] else cs2) →
      sumNew cs3 = j1 + s ∧ sumOld cs3 = i1 + s ∧ editSum cs3 = e1 ∧
      alignedB newString oldString cs3 0 0 = true ∧
      j1 + s ≤ newString.length ∧ i1 + s ≤ oldString.length ∧
      lcpLength (newString.drop (j1 + s)) (oldString.drop (i1 + s)) = 0 ∧
      (∀ c ∈ cs3, ∃ k, c.count = some k ∧ 1 ≤ k) ∧
      (∀ c ∈ cs3, ¬ (c.added = true ∧ c.removed = true)) ∧
      List.Chain' (fun a b => ¬ sameKind a b) cs3 ∧
      (∀ h t, cs2 = h :: t → ∃ t2, cs3 = h :: t2) ∧
      distSuffix newString oldString (i1 + s) (j1 + s) =
        distSuffix newString oldString i1 j1 := by
  intro s hs cs3 hcs3
  have hsle1 : s ≤ newString.length - j1 := by
    rw [hs]
    have := lcpLength_le_left (newString.drop j1) (oldString.drop i1)
    rw [List.length_drop] at this
    exact this
  have hsle2 : s ≤ oldString.length - i1 := by
    rw [hs]
    have := lcpLength_le_right (newString.drop j1) (oldString.drop i1)
    rw [List.length_drop] at this
    exact this
  have hmax : lcpLength (newString.drop (j1 + s)) (oldString.drop (i1 + s)) = 0 := by
    have := lcpLength_drop (newString.drop j1) (oldString.drop i1)
    rw [← hs, drop_drop_comm, drop_drop_comm] at this
    exact this
  have hdist : distSuffix newString oldString (i1 + s) (j1 + s) =
      distSuffix newString oldString i1 j1 := by
    have := distSuffix_snake newString oldString i1 j1
    rw [← hs] at this
    exact this
  by_cases hs0 : s = 0
  · subst hs0
    rw [if_neg (by simp)] at hcs3
    subst hcs3
    refine ⟨by omega, by omega, hes, hal, by omega, by omega, hmax, hcounts, hflags,
      hchain, ?_, hdist⟩
    intro h t hht
    exact ⟨t, hht⟩
  · rw [if_pos hs0] at hcs3
    subst hcs3
    obtain ⟨hn1, ho1, he1⟩ := sums_single_common (α := α) s
    refine ⟨?_, ?_, ?_, ?_, by omega, by omega, hmax, ?_, ?_, ?_, ?_, hdist⟩
    · rw [sumNew_append, hsn, hn1]
    · rw [sumOld_append, hso, ho1]
    · rw [editSum_append, hes, he1]; omega
    · rw [alignedB_append, hal, hsn, hso, alignedB_single_common]
      simp only [Nat.zero_add, Bool.true_and, decide_eq_true_eq]
      have := lcpLength_take (newString.drop j1) (oldString.drop i1)
      rw [← hs] at this
      exact this
    · intro c hc
      rcases List.mem_append.mp hc with hc | hc
      · exact hcounts c hc
      · simp only [List.mem_singleton] at hc
        subst hc
        exact ⟨s, rfl, by omega⟩
    · intro c hc
      rcases List.mem_append.mp hc with hc | hc
      · exact hflags c hc
      · simp only [List.mem_singleton] at hc
        subst hc
        simp
    · rw [chain_kinds, kinds_append]
      have hk1 : kinds [(⟨some s, false, false, []⟩ : Component α)] = [(false, false)] := rfl
      rw [hk1]
      exact chain_concat_ne _ _ ((chain_kinds cs2).mp hchain) hlastne
    · intro h t hht
      subst hht
      exact ⟨t ++ [⟨some s, false, false, []⟩], by simp⟩

/-! The two branch steps of the diagonal loop. -/

theorem branch_insert {α} [DecidableEq α] (newString oldString : List α)
    (em : Nat) (dq : Int) (q : SPath α) (hq : PathOK newString oldString em dq q)
    (hfeas : sumNew q.components < newString.length) :
    StepOK newString oldString (em + 1) (dq + 1) (sumNew q.components + 1)
      (sumOld q.components)
      (extractCommon (SPath.mk (q.newPos + 1) (pushComponent q.components true false))
        newString oldString (dq + 1)) := by
  obtain ⟨hpn, hpo, hpe⟩ := sums_push_add q.components hq.counts
  rw [hq.edits] at hpe
  have hnpos := hq.npos
  have hdpos := hq.dpos
  have hnp : (SPath.mk (q.newPos + 1) (pushComponent q.components true false)).newPos =
      ((sumNew q.components + 1 : Nat) : Int) - 1 := by
    show q.newPos + 1 = ((sumNew q.components + 1 : Nat) : Int) - 1
    omega
  have hd : ((sumNew q.components + 1 : Nat) : Int) - ((sumOld q.components : Nat) : Int) =
      dq + 1 := by omega
  have hj1 : sumNew q.components + 1 ≤ newString.length := hfeas
  have hi1 : sumOld q.components ≤ oldString.length := hq.ile
  rw [extractCommon_spec newString oldString _ (dq + 1) (sumNew q.components + 1)
    (sumOld q.components) hnp hd hj1 hi1]
  have hlastne : (kinds (pushComponent q.components true false)).getLast? ≠
      some (false, false) := by
    rw [kinds_push_getLast]
    simp
  obtain ⟨hsn', hso', hes', hal', hjle', hile', hmax', hcounts', hflags', hchain',
      hhead', hdist'⟩ :=
    snake_extend newString oldString (pushComponent q.components true false)
      (sumNew q.components + 1) (sumOld q.components) (em + 1) hpn hpo hpe
      (by rw [alignedB_push _ _ _ _ _ (Or.inl rfl)]; exact hq.aligned) hj1 hi1
      (counts_push _ _ _ hq.counts) (flags_push _ _ _ (by simp) hq.flags)
      (chain_push _ _ _ hq.chain) hlastne
      (lcpLength (newString.drop (sumNew q.components + 1))
        (oldString.drop (sumOld q.components))) rfl _ rfl
  refine ⟨lcpLength (newString.drop (sumNew q.components + 1))
    (oldString.drop (sumOld q.components)), rfl, hsn', hso', hes', ?_, ?_, hd, hal',
    hjle', hile', hmax', hcounts', hflags', hchain', ?_, hdist'⟩
  · show ((sumNew q.components + 1 : Nat) : Int) - 1 +
        (lcpLength (newString.drop (sumNew q.components + 1))
          (oldString.drop (sumOld q.components)) : Int) =
      ((sumNew q.components + 1 + lcpLength (newString.drop (sumNew q.components + 1))
        (oldString.drop (sumOld q.components)) : Nat) : Int) - 1
    omega
  · show ((sumOld q.components : Nat) : Int) - 1 +
        (lcpLength (newString.drop (sumNew q.components + 1))
          (oldString.drop (sumOld q.components)) : Int) =
      ((sumOld q.components + lcpLength (newString.drop (sumNew q.components + 1))
        (oldString.drop (sumOld q.components)) : Nat) : Int) - 1
    omega
  · intro hlcp
    obtain ⟨rest, hrest⟩ := hq.headlcp hlcp
    have hne1 : ¬ ((Component.mk (some (lcpLength newString oldString)) false false
        ([] : List α)).added = true ∧
        (Component.mk (some (lcpLength newString oldString)) false false
          ([] : List α)).removed = false) := by simp
    obtain ⟨t2, ht2⟩ := head_push (Component.mk (some (lcpLength newString oldString))
      false false []) rest true false (Or.inl hne1)
    exact hhead' _ t2 (by rw [hrest]; exact ht2)

theorem branch_remove {α} [DecidableEq α] (newString oldString : List α)
    (em : Nat) (dq : Int) (q : SPath α) (hq : PathOK newString oldString em dq q)
    (hfeas : sumOld q.components < oldString.length) :
    StepOK newString oldString (em + 1) (dq - 1) (sumNew q.components)
      (sumOld q.components + 1)
      (extractCommon (SPath.mk q.newPos (pushComponent q.components false true))
        newString oldString (dq - 1)) := by
  obtain ⟨hpn, hpo, hpe⟩ := sums_push_rem q.components hq.counts
  rw [hq.edits] at hpe
  have hnpos := hq.npos
  have hdpos := hq.dpos
  have hnp : (SPath.mk q.newPos (pushComponent q.components false true)).newPos =
      ((sumNew q.components : Nat) : Int) - 1 := by
    show q.newPos = ((sumNew q.components : Nat) : Int) - 1
    omega
  have hd : ((sumNew q.components : Nat) : Int) -
      ((sumOld q.components + 1 : Nat) : Int) = dq - 1 := by omega
  have hj1 : sumNew q.components ≤ newString.length := hq.jle
  have hi1 : sumOld q.components + 1 ≤ oldString.length := hfeas
  rw [extractCommon_spec newString oldString _ (dq - 1) (sumNew q.components)
    (sumOld q.components + 1) hnp hd hj1 hi1]
  have hlastne : (kinds (pushComponent q.components false true)).getLast? ≠
      some (false, false) := by
    rw [kinds_push_getLast]
    simp
  obtain ⟨hsn', hso', hes', hal', hjle', hile', hmax', hcounts', hflags', hchain',
      hhead', hdist'⟩ :=
    snake_extend newString oldString (pushComponent q.components false true)
      (sumNew q.components) (sumOld q.components + 1) (em + 1) hpn hpo hpe
      (by rw [alignedB_push _ _ _ _ _ (Or.inr rfl)]; exact hq.aligned) hj1 hi1
      (counts_push _ _ _ hq.counts) (flags_push _ _ _ (by simp) hq.flags)
      (chain_push _ _ _ hq.chain) hlastne
      (lcpLength (newString.drop (sumNew q.components))
        (oldString.drop (sumOld q.components + 1))) rfl _ rfl
  refine ⟨lcpLength (newString.drop (sumNew q.components))
    (oldString.drop (sumOld q.components + 1)), rfl, hsn', hso', hes', ?_, ?_, hd, hal',
    hjle', hile', hmax', hcounts', hflags', hchain', ?_, hdist'⟩
  · show ((sumNew q.components : Nat) : Int) - 1 +
        (lcpLength (newString.drop (sumNew q.components))
          (oldString.drop (sumOld q.components + 1)) : Int) =
      ((sumNew q.components + lcpLength (newString.drop (sumNew q.components))
        (oldString.drop (sumOld q.components + 1)) : Nat) : Int) - 1
    omega
  · show ((sumOld q.components + 1 : Nat) : Int) - 1 +
        (lcpLength (newString.drop (sumNew q.components))
          (oldString.drop (sumOld q.components + 1)) : Int) =
      ((sumOld q.components + 1 + lcpLength (newString.drop (sumNew q.components))
        (oldString.drop (sumOld q.components + 1)) : Nat) : Int) - 1
    omega
  · intro hlcp
    obtain ⟨rest, hrest⟩ := hq.headlcp hlcp
    have hne1 : ¬ ((Component.mk (some (lcpLength newString oldString)) false false
        ([] : List α)).added = false ∧
        (Component.mk (some (lcpLength newString oldString)) false false
          ([] : List α)).removed = true) := by simp
    obtain ⟨t2, ht2⟩ := head_push (Component.mk (some (lcpLength newString oldString))
      false false []) rest false true (Or.inl hne1)
    exact hhead' _ t2 (by rw [hrest]; exact ht2)

theorem flags_buildValues {α} (newString oldString : List α) :
    ∀ (cs : List (Component α)) (np op : Nat),
      (∀ c ∈ cs, ¬ (c.added = true ∧ c.removed = true)) →
      ∀ c ∈ buildValues cs newString oldString np op,
        ¬ (c.added = true ∧ c.removed = true) := by
  intro cs
  induction cs with
  | nil => intro np op _ c hc; exact absurd hc (by simp [buildValues_nil])
  | cons c cs ih =>
    intro np op hfl c2 hc2
    have hftail : ∀ x ∈ cs, ¬ (x.added = true ∧ x.removed = true) :=
      fun x hx => hfl x (by simp [hx])
    have hfhead := hfl c (by simp)
    cases hr : c.removed with
    | true =>
      rw [buildValues_removed _ _ _ _ _ _ hr] at hc2
      rcases List.mem_cons.mp hc2 with hc2 | hc2
      · subst hc2; simpa using hfhead
      · exact ih _ _ hftail c2 hc2
    | false =>
      cases ha : c.added with
      | true =>
        rw [buildValues_added _ _ _ _ _ _ hr ha] at hc2
        rcases List.mem_cons.mp hc2 with hc2 | hc2
        · subst hc2; simpa using hfhead
        · exact ih _ _ hftail c2 hc2
      | false =>
        rw [buildValues_common _ _ _ _ _ _ hr ha] at hc2
        rcases List.mem_cons.mp hc2 with hc2 | hc2
        · subst hc2; simpa using hfhead
        · exact ih _ _ hftail c2 hc2

theorem result_done {α} [DecidableEq α] (newString oldString : List α) (e : Nat) (d : Int)
    (j1 i1 : Nat) (ec : SPath α × Int)
    (hst : StepOK newString oldString e d j1 i1 ec)
    (hdN : sumNew ec.1.components = newString.length)
    (hdO : sumOld ec.1.components = oldString.length) :
    ResultOK newString oldString e
      (buildValues ec.1.components newString oldString 0 0) := by
  obtain ⟨s, hs, hsn, hso, hes, hnp, hop, hdq, hal, hjle, hile, hmax, hcounts, hflags,
    hchain, hhead, hdist⟩ := hst
  constructor
  · rw [nonRemovedConcat_buildValues, hdN, List.drop_zero, List.take_length]
  · rw [nonAddedConcat_buildValues _ _ _ _ _ hal hflags, hdO, List.drop_zero,
      List.take_length]
  · rw [editSum_buildValues, hes]
  · have h := dist_le_editSum newString oldString ec.1.components 0 0 hal
    simp only [List.drop_zero, Nat.zero_add] at h
    rw [hes, hdN, hdO, List.drop_length, List.drop_length] at h
    have h0 : dist ([] : List α) ([] : List α) = 0 := by rw [dist_nil_left]; rfl
    rw [h0] at h
    omega
  · exact counts_buildValues newString oldString ec.1.components 0 0 hcounts
      (by omega) (by omega)
  · exact flags_buildValues newString oldString ec.1.components 0 0 hflags
  · rw [chain_kinds, kinds_buildValues]
    exact (chain_kinds _).mp hchain
  · intro hlcp
    obtain ⟨rest, hrest⟩ := hhead hlcp
    rw [hrest, buildValues_common _ _ _ _ _ _ rfl rfl]
    have hcc : cnt (Component.mk (some (lcpLength newString oldString)) false false
        ([] : List α)) = lcpLength newString oldString := rfl
    rw [hcc, List.drop_zero]
    exact ⟨_, rfl⟩

theorem path_of_step {α} [DecidableEq α] (newString oldString : List α) (e : Nat) (d : Int)
    (j1 i1 : Nat) (ec : SPath α × Int)
    (hst : StepOK newString oldString e d j1 i1 ec)
    (hnotdone : ¬ (sumNew ec.1.components = newString.length ∧
      sumOld ec.1.components = oldString.length)) :
    PathOK newString oldString e d ec.1 := by
  obtain ⟨s, hs, hsn, hso, hes, hnp, hop, hdq, hal, hjle, hile, hmax, hcounts, hflags,
    hchain, hhead, hdist⟩ := hst
  exact {
    npos := by rw [hsn]; exact hnp
    dpos := by rw [hsn, hso]; push_cast; omega
    edits := hes
    aligned := hal
    jle := by omega
    ile := by omega
    maximal := by rw [hsn, hso]; exact hmax
    notdone := hnotdone
    counts := hcounts
    flags := hflags
    chain := hchain
    headlcp := hhead }

theorem pending_transfer {α} [DecidableEq α] (newString oldString : List α) (e : Nat)
    (d : Int) (j1 i1 jt it : Nat) (ec : SPath α × Int)
    (hst : StepOK newString oldString e d j1 i1 ec)
    (htrack : distSuffix newString oldString it jt + e = dist oldString newString)
    (ht : jt ≤ j1) (hdiag : (jt : Int) - (it : Int) = d) :
    distSuffix newString oldString i1 j1 + e = dist oldString newString := by
  obtain ⟨s, hs, hsn, hso, hes, hnp, hop, hdq, hal, hjle, hile, hmax, hcounts, hflags,
    hchain, hhead, hdist⟩ := hst
  have hi : i1 = it + (j1 - jt) := by omega
  have hj : j1 = jt + (j1 - jt) := by omega
  have hup : distSuffix newString oldString i1 j1 ≤
      distSuffix newString oldString it jt := by
    have h := distSuffix_shift newString oldString it jt (j1 - jt)
    rw [← hi, ← hj] at h
    exact h
  have hlow : dist oldString newString ≤ e +
      distSuffix newString oldString (i1 + s) (j1 + s) := by
    have h := dist_le_editSum newString oldString ec.1.components 0 0 hal
    simp only [List.drop_zero, Nat.zero_add] at h
    rw [hes, hsn, hso] at h
    exact h
  rw [hdist] at hlow
  omega

theorem step_outcome {α} [DecidableEq α] (newString oldString : List α) (e : Nat)
    (d : Int) (j1 i1 : Nat) (ec : SPath α × Int)
    (hst : StepOK newString oldString e d j1 i1 ec) :
    ((ec.1.newPos + 1 ≥ (newString.length : Int) ∧ ec.2 + 1 ≥ (oldString.length : Int)) ∧
      ResultOK newString oldString e
        (buildValues ec.1.components newString oldString 0 0)) ∨
    (¬ (ec.1.newPos + 1 ≥ (newString.length : Int) ∧
        ec.2 + 1 ≥ (oldString.length : Int)) ∧
      PathOK newString oldString e d ec.1 ∧
      distSuffix newString oldString (sumOld ec.1.components) (sumNew ec.1.components) =
        distSuffix newString oldString i1 j1) := by
  obtain ⟨s, hs, hsn, hso, hes, hnp, hop, hdq, hal, hjle, hile, hmax, hcounts, hflags,
    hchain, hhead, hdist⟩ := hst
  by_cases hdone : sumNew ec.1.components = newString.length ∧
      sumOld ec.1.components = oldString.length
  · left
    refine ⟨⟨?_, ?_⟩, result_done newString oldString e d j1 i1 ec
      ⟨s, hs, hsn, hso, hes, hnp, hop, hdq, hal, hjle, hile, hmax, hcounts, hflags,
        hchain, hhead, hdist⟩ hdone.1 hdone.2⟩
    · rw [hnp]
      have := hdone.1
      omega
    · rw [hop]
      have := hdone.2
      omega
  · right
    refine ⟨?_, path_of_step newString oldString e d j1 i1 ec
      ⟨s, hs, hsn, hso, hes, hnp, hop, hdq, hal, hjle, hile, hmax, hcounts, hflags,
        hchain, hhead, hdist⟩ hdone, ?_⟩
    · rw [hnp, hop]
      intro hcon
      apply hdone
      constructor <;> omega
    · rw [hsn, hso]
      exact hdist

/-! From a completed branch step to the diagonal-loop outcome. -/

theorem conclude_branch_clear {α} [DecidableEq α] (newString oldString : List α) (e : Nat)
    (d : Int) (bp : Int → Option (SPath α)) (j1 i1 : Nat) (χ : SPath α)
    (hst : StepOK newString oldString e d j1 i1 (extractCommon χ newString oldString d))
    (hred : execDiagonal newString oldString bp d =
      (if (extractCommon χ newString oldString d).1.newPos + 1 ≥ (newString.length : Int) ∧
          (extractCommon χ newString oldString d).2 + 1 ≥ (oldString.length : Int) then
        Sum.inl (buildValues (extractCommon χ newString oldString d).1.components
          newString oldString 0 0)
      else
        Sum.inr (fun k => if k = d then some (extractCommon χ newString oldString d).1
          else if k = d - 1 then none else bp k))) :
    DiagOut newString oldString e d bp ∧
    (distSuffix newString oldString i1 j1 + e = dist oldString newString →
      DiagOutPending newString oldString e d bp) := by
  rcases step_outcome newString oldString e d j1 i1 _ hst with ⟨hcond, hres⟩ |
    ⟨hcond, hpath, hdist2⟩
  · rw [if_pos hcond] at hred
    exact ⟨Or.inl ⟨_, hred, hres⟩, fun _ => Or.inl ⟨_, hred, hres⟩⟩
  · rw [if_neg hcond] at hred
    have hclr : (fun k => if k = d then some (extractCommon χ newString oldString d).1
        else if k = d - 1 then none else bp k) (d - 1) = none := by
      simp only
      rw [if_neg (show ¬ (d - 1 = d) by omega)]
      simp
    have hoth : ∀ k, k ≠ d → k ≠ d - 1 →
        (fun k => if k = d then some (extractCommon χ newString oldString d).1
          else if k = d - 1 then none else bp k) k = bp k := by
      intro k hk hk'
      simp only
      rw [if_neg hk, if_neg hk']
    have hstore : (fun k => if k = d then some (extractCommon χ newString oldString d).1
        else if k = d - 1 then none else bp k) d =
        some (extractCommon χ newString oldString d).1 := by
      simp
    refine ⟨Or.inr ⟨_, hred, hclr, hoth, Or.inr ⟨_, hstore, hpath⟩⟩, fun htrack => ?_⟩
    refine Or.inr ⟨_, _, hred, hclr, hoth, hstore, hpath, ?_⟩
    rw [hdist2]
    exact htrack

theorem conclude_branch_noclear {α} [DecidableEq α] (newString oldString : List α)
    (e : Nat) (d : Int) (bp : Int → Option (SPath α)) (j1 i1 : Nat) (χ : SPath α)
    (hnone : bp (d - 1) = none)
    (hst : StepOK newString oldString e d j1 i1 (extractCommon χ newString oldString d))
    (hred : execDiagonal newString oldString bp d =
      (if (extractCommon χ newString oldString d).1.newPos + 1 ≥ (newString.length : Int) ∧
          (extractCommon χ newString oldString d).2 + 1 ≥ (oldString.length : Int) then
        Sum.inl (buildValues (extractCommon χ newString oldString d).1.components
          newString oldString 0 0)
      else
        Sum.inr (fun k => if k = d then some (extractCommon χ newString oldString d).1
          else bp k))) :
    DiagOut newString oldString e d bp ∧
    (distSuffix newString oldString i1 j1 + e = dist oldString newString →
      DiagOutPending newString oldString e d bp) := by
  rcases step_outcome newString oldString e d j1 i1 _ hst with ⟨hcond, hres⟩ |
    ⟨hcond, hpath, hdist2⟩
  · rw [if_pos hcond] at hred
    exact ⟨Or.inl ⟨_, hred, hres⟩, fun _ => Or.inl ⟨_, hred, hres⟩⟩
  · rw [if_neg hcond] at hred
    have hclr : (fun k => if k = d then some (extractCommon χ newString oldString d).1
        else bp k) (d - 1) = none := by
      simp only
      rw [if_neg (show ¬ (d - 1 = d) by omega)]
      exact hnone
    have hoth : ∀ k, k ≠ d → k ≠ d - 1 →
        (fun k => if k = d then some (extractCommon χ newString oldString d).1
          else bp k) k = bp k := by
      intro k hk _
      simp only
      rw [if_neg hk]
    have hstore : (fun k => if k = d then some (extractCommon χ newString oldString d).1
        else bp k) d = some (extractCommon χ newString oldString d).1 := by
      simp
    refine ⟨Or.inr ⟨_, hred, hclr, hoth, Or.inr ⟨_, hstore, hpath⟩⟩, fun htrack => ?_⟩
    refine Or.inr ⟨_, _, hred, hclr, hoth, hstore, hpath, ?_⟩
    rw [hdist2]
    exact htrack

/-! The full case analysis of one diagonal step. -/

theorem prune_out_noclear {α} [DecidableEq α] (newString oldString : List α) (e : Nat)
    (d : Int) (bp : Int → Option (SPath α)) (hnone : bp (d - 1) = none)
    (hred : execDiagonal newString oldString bp d =
      Sum.inr (fun k => if k = d then none else bp k)) :
    DiagOut newString oldString e d bp := by
  refine Or.inr ⟨_, hred, ?_, ?_, Or.inl ?_⟩
  · rw [if_neg (show ¬ (d - 1 = d) by omega)]
    exact hnone
  · intro k hk _
    rw [if_neg hk]
  · simp

theorem prune_out_clear {α} [DecidableEq α] (newString oldString : List α) (e : Nat)
    (d : Int) (bp : Int → Option (SPath α))
    (hred : execDiagonal newString oldString bp d =
      Sum.inr (fun k => if k = d then none else if k = d - 1 then none else bp k)) :
    DiagOut newString oldString e d bp := by
  refine Or.inr ⟨_, hred, ?_, ?_, Or.inl ?_⟩
  · rw [if_neg (show ¬ (d - 1 = d) by omega)]
    simp
  · intro k hk hk'
    rw [if_neg hk, if_neg hk']
  · simp

theorem execDiagonal_main {α} [DecidableEq α] (newString oldString : List α) (e : Nat)
    (he : 1 ≤ e) (d : Int) (bp : Int → Option (SPath α))
    (HA : ∀ a, bp (d - 1) = some a → PathOK newString oldString (e - 1) (d - 1) a)
    (HR : ∀ r, bp (d + 1) = some r → PathOK newString oldString (e - 1) (d + 1) r) :
    DiagOut newString oldString e d bp ∧
    (Pending newString oldString e bp d → DiagOutPending newString oldString e d bp) := by
  have he1 : e - 1 + 1 = e := by omega
  have hd1 : d - 1 + 1 = d := by ring
  have hd2 : d + 1 - 1 = d := by ring
  rcases haP : bp (d - 1) with _ | a
  case none =>
    rcases hrP : bp (d + 1) with _ | r
    case none =>
      have hred : execDiagonal newString oldString bp d =
          Sum.inr (fun k => if k = d then none else bp k) := by
        simp only [execDiagonal, haP, hrP, Option.isSome_none]
        norm_num
      refine ⟨prune_out_noclear newString oldString e d bp haP hred, fun hp => ?_⟩
      rcases hp with ⟨a', ha', -⟩ | ⟨r', hr', -⟩
      · rw [haP] at ha'
        exact absurd ha' (by simp)
      · rw [hrP] at hr'
        exact absurd hr' (by simp)
    case some =>
      have hrPO := HR r hrP
      by_cases hfr : sumOld r.components < oldString.length
      · have hRt : decide (0 ≤ r.newPos - d ∧ r.newPos - d < (oldString.length : Int)) =
            true := by
          apply decide_eq_true
          have h1 := hrPO.npos
          have h2 := hrPO.dpos
          omega
        have hred : execDiagonal newString oldString bp d =
            (if (extractCommon (SPath.mk r.newPos (pushComponent r.components false true))
                  newString oldString d).1.newPos + 1 ≥ (newString.length : Int) ∧
                (extractCommon (SPath.mk r.newPos (pushComponent r.components false true))
                  newString oldString d).2 + 1 ≥ (oldString.length : Int) then
              Sum.inl (buildValues (extractCommon (SPath.mk r.newPos
                (pushComponent r.components false true)) newString oldString d).1.components
                newString oldString 0 0)
            else
              Sum.inr (fun k => if k = d then some (extractCommon (SPath.mk r.newPos
                (pushComponent r.components false true)) newString oldString d).1
              else bp k)) := by
          simp only [execDiagonal, haP, hrP, Option.isSome_none, Option.getD_some,
            clonePath, selectBase, hRt]
          norm_num
        have hstep := branch_remove newString oldString (e - 1) (d + 1) r hrPO hfr
        rw [he1, hd2] at hstep
        obtain ⟨hout, hpend⟩ := conclude_branch_noclear newString oldString e d bp
          (sumNew r.components) (sumOld r.components + 1) _ haP hstep hred
        refine ⟨hout, fun hp => ?_⟩
        rcases hp with ⟨a', ha', -⟩ | ⟨r', hr', -, -, htr⟩
        · rw [haP] at ha'
          exact absurd ha' (by simp)
        · rw [hrP] at hr'
          injection hr' with hh
          subst hh
          exact hpend htr
      · have hRf : decide (0 ≤ r.newPos - d ∧ r.newPos - d < (oldString.length : Int)) =
            false := by
          apply decide_eq_false
          have h1 := hrPO.npos
          have h2 := hrPO.dpos
          omega
        have hred : execDiagonal newString oldString bp d =
            Sum.inr (fun k => if k = d then none else bp k) := by
          simp only [execDiagonal, haP, hrP, Option.isSome_none, hRf]
          norm_num
        refine ⟨prune_out_noclear newString oldString e d bp haP hred, fun hp => ?_⟩
        rcases hp with ⟨a', ha', -⟩ | ⟨r', hr', -, hfr', -⟩
        · rw [haP] at ha'
          exact absurd ha' (by simp)
        · rw [hrP] at hr'
          injection hr' with hh
          subst hh
          exact absurd hfr' hfr
  case some =>
    have haPO := HA a haP
    rcases hrP : bp (d + 1) with _ | r
    case none =>
      by_cases hfa : sumNew a.components < newString.length
      · have hAt : decide (a.newPos + 1 < (newString.length : Int)) = true := by
          apply decide_eq_true
          have h1 := haPO.npos
          omega
        have hred : execDiagonal newString oldString bp d =
            (if (extractCommon (SPath.mk (a.newPos + 1)
                  (pushComponent a.components true false))
                  newString oldString d).1.newPos + 1 ≥ (newString.length : Int) ∧
                (extractCommon (SPath.mk (a.newPos + 1)
                  (pushComponent a.components true false))
                  newString oldString d).2 + 1 ≥ (oldString.length : Int) then
              Sum.inl (buildValues (extractCommon (SPath.mk (a.newPos + 1)
                (pushComponent a.components true false)) newString oldString d).1.components
                newString oldString 0 0)
            else
              Sum.inr (fun k => if k = d then some (extractCommon (SPath.mk (a.newPos + 1)
                (pushComponent a.components true false)) newString oldString d).1
              else if k = d - 1 then none else bp k)) := by
          simp only [execDiagonal, haP, hrP, Option.isSome_some, Option.getD_some,
            clonePath, selectBase, hAt]
          norm_num
        have hstep := branch_insert newString oldString (e - 1) (d - 1) a haPO hfa
        rw [he1, hd1] at hstep
        obtain ⟨hout, hpend⟩ := conclude_branch_clear newString oldString e d bp
          (sumNew a.components + 1) (sumOld a.components) _ hstep hred
        refine ⟨hout, fun hp => ?_⟩
        rcases hp with ⟨a', ha', -, -, htr⟩ | ⟨r', hr', -⟩
        · rw [haP] at ha'
          injection ha' with hh
          subst hh
          exact hpend htr
        · rw [hrP] at hr'
          exact absurd hr' (by simp)
      · have hAf : decide (a.newPos + 1 < (newString.length : Int)) = false := by
          apply decide_eq_false
          have h1 := haPO.npos
          omega
        have hred : execDiagonal newString oldString bp d =
            Sum.inr (fun k => if k = d then none else if k = d - 1 then none else bp k) := by
          simp only [execDiagonal, haP, hrP, Option.isSome_some, hAf]
          norm_num
        refine ⟨prune_out_clear newString oldString e d bp hred, fun hp => ?_⟩
        rcases hp with ⟨a', ha', -, hfa', -⟩ | ⟨r', hr', -⟩
        · rw [haP] at ha'
          injection ha' with hh
          subst hh
          exact absurd hfa' hfa
        · rw [hrP] at hr'
          exact absurd hr' (by simp)
    case some =>
      have hrPO := HR r hrP
      by_cases hfa : sumNew a.components < newString.length
      · have hAt : decide (a.newPos + 1 < (newString.length : Int)) = true := by
          apply decide_eq_true
          have h1 := haPO.npos
          omega
        by_cases hfr : sumOld r.components < oldString.length
        · have hRt : decide (0 ≤ r.newPos - d ∧ r.newPos - d < (oldString.length : Int)) =
              true := by
            apply decide_eq_true
            have h1 := hrPO.npos
            have h2 := hrPO.dpos
            omega
          by_cases hlt : sumNew a.components < sumNew r.components
          · have hLt : decide (a.newPos < r.newPos) = true := by
              apply decide_eq_true
              have h1 := haPO.npos
              have h2 := hrPO.npos
              omega
            have hred : execDiagonal newString oldString bp d =
                (if (extractCommon (SPath.mk r.newPos
                      (pushComponent r.components false true))
                      newString oldString d).1.newPos + 1 ≥ (newString.length : Int) ∧
                    (extractCommon (SPath.mk r.newPos
                      (pushComponent r.components false true))
                      newString oldString d).2 + 1 ≥ (oldString.length : Int) then
                  Sum.inl (buildValues (extractCommon (SPath.mk r.newPos
                    (pushComponent r.components false true))
                    newString oldString d).1.components newString oldString 0 0)
                else
                  Sum.inr (fun k => if k = d then some (extractCommon (SPath.mk r.newPos
                    (pushComponent r.components false true)) newString oldString d).1
                  else if k = d - 1 then none else bp k)) := by
              simp only [execDiagonal, haP, hrP, Option.isSome_some, Option.getD_some,
                clonePath, selectBase, hAt, hRt, hLt]
              norm_num
            have hstep := branch_remove newString oldString (e - 1) (d + 1) r hrPO hfr
            rw [he1, hd2] at hstep
            obtain ⟨hout, hpend⟩ := conclude_branch_clear newString oldString e d bp
              (sumNew r.components) (sumOld r.components + 1) _ hstep hred
            refine ⟨hout, fun hp => ?_⟩
            rcases hp with ⟨a', ha', -, -, htr⟩ | ⟨r', hr', -, -, htr⟩
            · rw [haP] at ha'
              injection ha' with hh
              subst hh
              refine hpend (pending_transfer newString oldString e d (sumNew r.components)
                (sumOld r.components + 1) (sumNew a.components + 1) (sumOld a.components)
                _ hstep htr (by omega) ?_)
              have h2 := haPO.dpos
              omega
            · rw [hrP] at hr'
              injection hr' with hh
              subst hh
              exact hpend htr
          · have hLf : decide (a.newPos < r.newPos) = false := by
              apply decide_eq_false
              have h1 := haPO.npos
              have h2 := hrPO.npos
              omega
            have hred : execDiagonal newString oldString bp d =
                (if (extractCommon (SPath.mk (a.newPos + 1)
                      (pushComponent a.components true false))
                      newString oldString d).1.newPos + 1 ≥ (newString.length : Int) ∧
                    (extractCommon (SPath.mk (a.newPos + 1)
                      (pushComponent a.components true false))
                      newString oldString d).2 + 1 ≥ (oldString.length : Int) then
                  Sum.inl (buildValues (extractCommon (SPath.mk (a.newPos + 1)
                    (pushComponent a.components true false))
                    newString oldString d).1.components newString oldString 0 0)
                else
                  Sum.inr (fun k => if k = d then some (extractCommon
                    (SPath.mk (a.newPos + 1) (pushComponent a.components true false))
                    newString oldString d).1
                  else if k = d - 1 then none else bp k)) := by
              simp only [execDiagonal, haP, hrP, Option.isSome_some, Option.getD_some,
                clonePath, selectBase, hAt, hRt, hLf]
              norm_num
            have hstep := branch_insert newString oldString (e - 1) (d - 1) a haPO hfa
            rw [he1, hd1] at hstep
            obtain ⟨hout, hpend⟩ := conclude_branch_clear newString oldString e d bp
              (sumNew a.components + 1) (sumOld a.components) _ hstep hred
            refine ⟨hout, fun hp => ?_⟩
            rcases hp with ⟨a', ha', -, -, htr⟩ | ⟨r', hr', -, -, htr⟩
            · rw [haP] at ha'
              injection ha' with hh
              subst hh
              exact hpend htr
            · rw [hrP] at hr'
              injection hr' with hh
              subst hh
              refine hpend (pending_transfer newString oldString e d
                (sumNew a.components + 1) (sumOld a.components) (sumNew r.components)
                (sumOld r.components + 1) _ hstep htr (by omega) ?_)
              have h2 := hrPO.dpos
              omega
        · have hRf : decide (0 ≤ r.newPos - d ∧ r.newPos - d < (oldString.length : Int)) =
              false := by
            apply decide_eq_false
            have h1 := hrPO.npos
            have h2 := hrPO.dpos
            omega
          have hred : execDiagonal newString oldString bp d =
              (if (extractCommon (SPath.mk (a.newPos + 1)
                    (pushComponent a.components true false))
                    newString oldString d).1.newPos + 1 ≥ (newString.length : Int) ∧
                  (extractCommon (SPath.mk (a.newPos + 1)
                    (pushComponent a.components true false))
                    newString oldString d).2 + 1 ≥ (oldString.length : Int) then
                Sum.inl (buildValues (extractCommon (SPath.mk (a.newPos + 1)
                  (pushComponent a.components true false))
                  newString oldString d).1.components newString oldString 0 0)
              else
                Sum.inr (fun k => if k = d then some (extractCommon
                  (SPath.mk (a.newPos + 1) (pushComponent a.components true false))
                  newString oldString d).1
                else if k = d - 1 then none else bp k)) := by
            simp only [execDiagonal, haP, hrP, Option.isSome_some, Option.getD_some,
              clonePath, selectBase, hAt, hRf]
            norm_num
          have hstep := branch_insert newString oldString (e - 1) (d - 1) a haPO hfa
          rw [he1, hd1] at hstep
          obtain ⟨hout, hpend⟩ := conclude_branch_clear newString oldString e d bp
            (sumNew a.components + 1) (sumOld a.components) _ hstep hred
          refine ⟨hout, fun hp => ?_⟩
          rcases hp with ⟨a', ha', -, -, htr⟩ | ⟨r', hr', -, hfr', -⟩
          · rw [haP] at ha'
            injection ha' with hh
            subst hh
            exact hpend htr
          · rw [hrP] at hr'
            injection hr' with hh
            subst hh
            exact absurd hfr' hfr
      · have hAf : decide (a.newPos + 1 < (newString.length : Int)) = false := by
          apply decide_eq_false
          have h1 := haPO.npos
          omega
        by_cases hfr : sumOld r.components < oldString.length
        · have hRt : decide (0 ≤ r.newPos - d ∧ r.newPos - d < (oldString.length : Int)) =
              true := by
            apply decide_eq_true
            have h1 := hrPO.npos
            have h2 := hrPO.dpos
            omega
          have hred : execDiagonal newString oldString bp d =
              (if (extractCommon (SPath.mk r.newPos
                    (pushComponent r.components false true))
                    newString oldString d).1.newPos + 1 ≥ (newString.length : Int) ∧
                  (extractCommon (SPath.mk r.newPos
                    (pushComponent r.components false true))
                    newString oldString d).2 + 1 ≥ (oldString.length : Int) then
                Sum.inl (buildValues (extractCommon (SPath.mk r.newPos
                  (pushComponent r.components false true))
                  newString oldString d).1.components newString oldString 0 0)
              else
                Sum.inr (fun k => if k = d then some (extractCommon (SPath.mk r.newPos
                  (pushComponent r.components false true)) newString oldString d).1
                else if k = d - 1 then none else bp k)) := by
            simp only [execDiagonal, haP, hrP, Option.isSome_some, Option.getD_some,
              clonePath, selectBase, hAf, hRt]
            norm_num
          have hstep := branch_remove newString oldString (e - 1) (d + 1) r hrPO hfr
          rw [he1, hd2] at hstep
          obtain ⟨hout, hpend⟩ := conclude_branch_clear newString oldString e d bp
            (sumNew r.components) (sumOld r.components + 1) _ hstep hred
          refine ⟨hout, fun hp => ?_⟩
          rcases hp with ⟨a', ha', -, hfa', -⟩ | ⟨r', hr', -, -, htr⟩
          · rw [haP] at ha'
            injection ha' with hh
            subst hh
            exact absurd hfa' hfa
          · rw [hrP] at hr'
            injection hr' with hh
            subst hh
            exact hpend htr
        · have hRf : decide (0 ≤ r.newPos - d ∧ r.newPos - d < (oldString.length : Int)) =
              false := by
            apply decide_eq_false
            have h1 := hrPO.npos
            have h2 := hrPO.dpos
            omega
          have hred : execDiagonal newString oldString bp d =
              Sum.inr (fun k => if k = d then none else if k = d - 1 then none
                else bp k) := by
            simp only [execDiagonal, haP, hrP, Option.isSome_some, hAf, hRf]
            norm_num
          refine ⟨prune_out_clear newString oldString e d bp hred, fun hp => ?_⟩
          rcases hp with ⟨a', ha', -, hfa', -⟩ | ⟨r', hr', -, hfr', -⟩
          · rw [haP] at ha'
            injection ha' with hh
            subst hh
            exact absurd hfa' hfa
          · rw [hrP] at hr'
            injection hr' with hh
            subst hh
            exact absurd hfr' hfr

/-! The diagonal list of a pass and its suffixes. -/

theorem diagsFrom_zero (e : Nat) : diagsFrom e 0 = diagonals e := by
  unfold diagsFrom diagonals
  rw [Nat.sub_zero]
  apply List.map_congr_left
  intro i _
  push_cast
  ring

theorem diagsFrom_cons (e k : Nat) (hk : k ≤ e) :
    diagsFrom e k = (-(e : Int) + 2 * k) :: diagsFrom e (k + 1) := by
  unfold diagsFrom
  have h1 : e + 1 - k = (e - k) + 1 := by omega
  have h2 : e + 1 - (k + 1) = e - k := by omega
  rw [h1, h2, List.range_succ_eq_map, List.map_cons, List.map_map, List.cons.injEq]
  constructor
  · norm_num
  · apply List.map_congr_left
    intro i _
    simp only [Function.comp_apply]
    push_cast
    ring

theorem diagsFrom_end (e k : Nat) (hk : e + 1 ≤ k) : diagsFrom e k = [] := by
  unfold diagsFrom
  rw [Nat.sub_eq_zero_of_le hk, List.range_zero, List.map_nil]

theorem execDiagLoop_nil {α} [DecidableEq α] (newString oldString : List α)
    (bp : Int → Option (SPath α)) :
    execDiagLoop newString oldString [] bp = Sum.inr bp := rfl

theorem execDiagLoop_cons_inl {α} [DecidableEq α] (newString oldString : List α)
    (d : Int) (ds : List Int) (bp : Int → Option (SPath α)) (res : List (Component α))
    (heq : execDiagonal newString oldString bp d = Sum.inl res) :
    execDiagLoop newString oldString (d :: ds) bp = Sum.inl res := by
  rw [execDiagLoop, heq]

theorem execDiagLoop_cons_inr {α} [DecidableEq α] (newString oldString : List α)
    (d : Int) (ds : List Int) (bp bp2 : Int → Option (SPath α))
    (heq : execDiagonal newString oldString bp d = Sum.inr bp2) :
    execDiagLoop newString oldString (d :: ds) bp =
      execDiagLoop newString oldString ds bp2 := by
  rw [execDiagLoop, heq]

/-! Advancing the mid-pass invariant over one processed diagonal. -/

theorem s1_update {α} [DecidableEq α] (newString oldString : List α) (e : Nat) (m : Int)
    (bp bp2 : Int → Option (SPath α))
    (hmpar : (m + (e : Int)) % 2 = 0) (hmlow : -(e : Int) ≤ m)
    (hS1 : ∀ d p, bp d = some p →
      ((d + (e : Int)) % 2 = 1 ∧ m - 1 ≤ d ∧ -(e : Int) + 1 ≤ d ∧ d ≤ (e : Int) - 1 ∧
        PathOK newString oldString (e - 1) d p) ∨
      ((d + (e : Int)) % 2 = 0 ∧ -(e : Int) ≤ d ∧ d < m ∧
        PathOK newString oldString e d p))
    (hclr : bp2 (m - 1) = none)
    (hoth : ∀ k, k ≠ m → k ≠ m - 1 → bp2 k = bp k)
    (hstore : bp2 m = none ∨ ∃ p2, bp2 m = some p2 ∧ PathOK newString oldString e m p2) :
    ∀ d p, bp2 d = some p →
      ((d + (e : Int)) % 2 = 1 ∧ (m + 2) - 1 ≤ d ∧ -(e : Int) + 1 ≤ d ∧
        d ≤ (e : Int) - 1 ∧ PathOK newString oldString (e - 1) d p) ∨
      ((d + (e : Int)) % 2 = 0 ∧ -(e : Int) ≤ d ∧ d < m + 2 ∧
        PathOK newString oldString e d p) := by
  intro d p hd
  by_cases hdm : d = m
  · subst hdm
    rcases hstore with hnone | ⟨p2, hp2, hpok⟩
    · rw [hnone] at hd
      cases hd
    · rw [hp2] at hd
      injection hd with hh
      subst hh
      exact Or.inr ⟨hmpar, hmlow, by omega, hpok⟩
  · by_cases hdm1 : d = m - 1
    · subst hdm1
      rw [hclr] at hd
      cases hd
    · rw [hoth d hdm hdm1] at hd
      rcases hS1 d p hd with ⟨h1, h2, h3, h4, h5⟩ | ⟨h1, h2, h3, h4⟩
      · exact Or.inl ⟨h1, by omega, h3, h4, h5⟩
      · exact Or.inr ⟨h1, h2, by omega, h4⟩

/-! One full pass of the diagonal loop preserves the invariants or returns a
finished minimal script. -/

theorem pass_aux {α} [DecidableEq α] (newString oldString : List α) (e : Nat)
    (he : 1 ≤ e) :
    ∀ t k (bp : Int → Option (SPath α)), e + 1 - k = t → k ≤ e + 1 →
      MidState newString oldString e (-(e : Int) + 2 * k) bp →
      (∃ res, execDiagLoop newString oldString (diagsFrom e k) bp = Sum.inl res ∧
        ResultOK newString oldString e res) ∨
      (∃ bp2, execDiagLoop newString oldString (diagsFrom e k) bp = Sum.inr bp2 ∧
        GoodState newString oldString e bp2) := by
  intro t
  induction t with
  | zero =>
    intro k bp ht hk hmid
    have hke : k = e + 1 := by omega
    subst hke
    rw [diagsFrom_end e (e + 1) le_rfl, execDiagLoop_nil]
    obtain ⟨hS1, hS2⟩ := hmid
    right
    refine ⟨bp, rfl, ?_, ?_⟩
    · intro d p hd
      rcases hS1 d p hd with ⟨h1, h2, h3, h4, h5⟩ | ⟨h1, h2, h3, h4⟩
      · exfalso
        push_cast at h2
        omega
      · refine ⟨h1, h2, ?_, h4⟩
        push_cast at h3
        omega
    · rcases hS2 with ⟨dstar, hdm, hdle, hdpar, -⟩ | ⟨d0, p0, hlive, hpar0, hlt0, hpok0, hdist0⟩
      · exfalso
        push_cast at hdm
        omega
      · exact ⟨d0, p0, hlive, hpok0, hdist0⟩
  | succ t ih =>
    intro k bp ht hk hmid
    have hke : k ≤ e := by omega
    obtain ⟨hS1, hS2⟩ := hmid
    rw [diagsFrom_cons e k hke]
    have hm2 : -(e : Int) + 2 * ((k + 1 : Nat) : Int) = (-(e : Int) + 2 * k) + 2 := by
      push_cast
      ring
    have hmpar : ((-(e : Int) + 2 * k) + (e : Int)) % 2 = 0 := by omega
    have hmlow : -(e : Int) ≤ -(e : Int) + 2 * k := by
      have : (0 : Int) ≤ 2 * (k : Int) := by positivity
      omega
    have HA : ∀ a, bp ((-(e : Int) + 2 * k) - 1) = some a →
        PathOK newString oldString (e - 1) ((-(e : Int) + 2 * k) - 1) a := by
      intro a ha
      rcases hS1 _ a ha with ⟨-, -, -, -, h5⟩ | ⟨h1, -, -, -⟩
      · exact h5
      · exfalso
        omega
    have HR : ∀ r, bp ((-(e : Int) + 2 * k) + 1) = some r →
        PathOK newString oldString (e - 1) ((-(e : Int) + 2 * k) + 1) r := by
      intro r hr
      rcases hS1 _ r hr with ⟨-, -, -, -, h5⟩ | ⟨-, -, h3, -⟩
      · exact h5
      · exfalso
        omega
    obtain ⟨hout, hpend⟩ := execDiagonal_main newString oldString e he
      (-(e : Int) + 2 * k) bp HA HR
    rcases hS2 with ⟨dstar, hdm, hdle, hdpar, hPend⟩ |
      ⟨d0, p0, hlive, hpar0, hlt0, hpok0, hdist0⟩
    · by_cases hds : dstar = -(e : Int) + 2 * k
      · subst hds
        rcases hpend hPend with ⟨res, heq, hres⟩ |
          ⟨bp2, p2, heq, hclr, hoth, hstore, hpok2, hdist2⟩
        · left
          exact ⟨res, by rw [execDiagLoop_cons_inl _ _ _ _ _ _ heq], hres⟩
        · rw [execDiagLoop_cons_inr _ _ _ _ _ _ heq]
          apply ih (k + 1) bp2 (by omega) (by omega)
          rw [hm2]
          refine ⟨s1_update newString oldString e _ bp bp2 hdpar hmlow hS1 hclr hoth
            (Or.inr ⟨p2, hstore, hpok2⟩), Or.inr ⟨_, p2, hstore, hdpar, by omega,
            hpok2, hdist2⟩⟩
      · have hds2 : (-(e : Int) + 2 * k) + 2 ≤ dstar := by omega
        rcases hout with ⟨res, heq, hres⟩ | ⟨bp2, heq, hclr, hoth, hstore⟩
        · left
          exact ⟨res, by rw [execDiagLoop_cons_inl _ _ _ _ _ _ heq], hres⟩
        · rw [execDiagLoop_cons_inr _ _ _ _ _ _ heq]
          apply ih (k + 1) bp2 (by omega) (by omega)
          rw [hm2]
          refine ⟨s1_update newString oldString e _ bp bp2 hmpar hmlow hS1 hclr hoth
            hstore, Or.inl ⟨dstar, by omega, hdle, hdpar, ?_⟩⟩
          rcases hPend with ⟨a, ha, h2, h3, h4⟩ | ⟨r, hr, h2, h3, h4⟩
          · exact Or.inl ⟨a, by rw [hoth (dstar - 1) (by omega) (by omega)]; exact ha,
              h2, h3, h4⟩
          · exact Or.inr ⟨r, by rw [hoth (dstar + 1) (by omega) (by omega)]; exact hr,
              h2, h3, h4⟩
    · rcases hout with ⟨res, heq, hres⟩ | ⟨bp2, heq, hclr, hoth, hstore⟩
      · left
        exact ⟨res, by rw [execDiagLoop_cons_inl _ _ _ _ _ _ heq], hres⟩
      · rw [execDiagLoop_cons_inr _ _ _ _ _ _ heq]
        apply ih (k + 1) bp2 (by omega) (by omega)
        rw [hm2]
        refine ⟨s1_update newString oldString e _ bp bp2 hmpar hmlow hS1 hclr hoth
          hstore, Or.inr ⟨d0, p0, ?_, hpar0, by omega, hpok0, hdist0⟩⟩
        rw [hoth d0 (by omega) (by omega)]
        exact hlive

/-! A live search path is never at the end, so its remaining distance is
positive. -/

theorem lcpLength_self_pos {α} [DecidableEq α] (u : List α) (hu : u ≠ []) :
    1 ≤ lcpLength u u := by
  cases u with
  | nil => exact absurd rfl hu
  | cons x u' =>
    rw [lcpLength_cons_cons, if_pos rfl]
    omega

theorem distSuffix_pos_of_pathOK {α} [DecidableEq α] (newString oldString : List α)
    (e : Nat) (d : Int) (p : SPath α) (hpok : PathOK newString oldString e d p) :
    1 ≤ distSuffix newString oldString (sumOld p.components) (sumNew p.components) := by
  by_contra hcon
  have h0 : distSuffix newString oldString (sumOld p.components) (sumNew p.components) =
      0 := by omega
  have heq : oldString.drop (sumOld p.components) = newString.drop (sumNew p.components) :=
    dist_eq_zero _ _ h0
  by_cases hnil : newString.drop (sumNew p.components) = []
  · have hjn : newString.length ≤ sumNew p.components := by
      by_contra hj
      have : newString.drop (sumNew p.components) ≠ [] := by
        intro hc
        have := congrArg List.length hc
        rw [List.length_drop] at this
        simp at this
        omega
      exact this hnil
    have hio : oldString.length ≤ sumOld p.components := by
      by_contra hi
      have : oldString.drop (sumOld p.components) ≠ [] := by
        intro hc
        have := congrArg List.length hc
        rw [List.length_drop] at this
        simp at this
        omega
      rw [heq] at this
      exact this hnil
    exact hpok.notdone ⟨by have := hpok.jle; omega, by have := hpok.ile; omega⟩
  · have hpos : 1 ≤ lcpLength (newString.drop (sumNew p.components))
        (oldString.drop (sumOld p.components)) := by
      rw [heq]
      exact lcpLength_self_pos _ hnil
    rw [hpok.maximal] at hpos
    omega

/-! Entering a pass: a good state of the previous edit length yields the
initial mid-pass invariant. -/

theorem midstate_init {α} [DecidableEq α] (newString oldString : List α) (e : Nat)
    (he : 1 ≤ e) (_heD : e ≤ dist oldString newString) (bp : Int → Option (SPath α))
    (hg : GoodState newString oldString (e - 1) bp) :
    MidState newString oldString e (-(e : Int)) bp := by
  obtain ⟨hAll, d0, p0, hlive, hpok, hdist⟩ := hg
  constructor
  · intro d p hd
    obtain ⟨h1, h2, h3, h4⟩ := hAll d p hd
    left
    refine ⟨by omega, by omega, by omega, by omega, h4⟩
  · left
    obtain ⟨hb1, hb2, hb3, -⟩ := hAll d0 p0 hlive
    have hmax := hpok.maximal
    have hpos : 1 ≤ dist (oldString.drop (sumOld p0.components))
        (newString.drop (sumNew p0.components)) :=
      distSuffix_pos_of_pathOK newString oldString (e - 1) d0 p0 hpok
    rcases dist_move (newString.drop (sumNew p0.components))
      (oldString.drop (sumOld p0.components)) hpos hmax with ⟨hne, hstep⟩ | ⟨hne, hstep⟩
    · have hfe : sumNew p0.components < newString.length := by
        by_contra hcon
        exact hne (List.drop_eq_nil_of_le (by omega))
      rw [drop_drop_comm] at hstep
      refine ⟨d0 + 1, by omega, by omega, by omega, Or.inl ⟨p0,
        by rw [show d0 + 1 - 1 = d0 by ring]; exact hlive,
        by rw [show d0 + 1 - 1 = d0 by ring]; exact hpok, hfe, ?_⟩⟩
      have hd2 : distSuffix newString oldString (sumOld p0.components)
          (sumNew p0.components + 1) + 1 = distSuffix newString oldString
          (sumOld p0.components) (sumNew p0.components) := hstep
      omega
    · have hfe : sumOld p0.components < oldString.length := by
        by_contra hcon
        exact hne (List.drop_eq_nil_of_le (by omega))
      rw [drop_drop_comm] at hstep
      refine ⟨d0 - 1, by omega, by omega, by omega, Or.inr ⟨p0,
        by rw [show d0 - 1 + 1 = d0 by ring]; exact hlive,
        by rw [show d0 - 1 + 1 = d0 by ring]; exact hpok, hfe, ?_⟩⟩
      have hd2 : distSuffix newString oldString (sumOld p0.components + 1)
          (sumNew p0.components) + 1 = distSuffix newString oldString
          (sumOld p0.components) (sumNew p0.components) := hstep
      omega

/-! The outer trial-edit-length loop reaches the minimal edit length and
returns a minimal script. -/

theorem diffLoop_good {α} [DecidableEq α] (newString oldString : List α) :
    ∀ n c (bp : Int → Option (SPath α)), dist oldString newString - c = n →
      c < dist oldString newString →
      GoodState newString oldString c bp →
      ∃ res, diffLoop newString oldString bp (c + 1)
          (newString.length + oldString.length) = some res ∧
        ResultOK newString oldString (dist oldString newString) res := by
  intro n
  induction n with
  | zero =>
    intro c bp h1 h2 _
    omega
  | succ n ih =>
    intro c bp h1 h2 hg
    have hDle : dist oldString newString ≤ newString.length + oldString.length := by
      have := dist_le_lengths oldString newString
      omega
    have hcle : c + 1 ≤ newString.length + oldString.length := by omega
    rw [diffLoop, if_pos hcle]
    have hmid : MidState newString oldString (c + 1)
        (-(((c + 1 : Nat)) : Int) + 2 * ((0 : Nat) : Int)) bp := by
      rw [show -(((c + 1 : Nat)) : Int) + 2 * ((0 : Nat) : Int) =
        -(((c + 1 : Nat)) : Int) by norm_num]
      exact midstate_init newString oldString (c + 1) (by omega) (by omega) bp hg
    have hpass := pass_aux newString oldString (c + 1) (by omega) (c + 1 + 1 - 0) 0 bp
      rfl (by omega) hmid
    rw [diagsFrom_zero] at hpass
    rcases hpass with ⟨res, heq, hres⟩ | ⟨bp2, heq, hg2⟩
    · rw [heq]
      refine ⟨res, rfl, ?_⟩
      have hle : dist oldString newString ≤ c + 1 := hres.dle
      have hceq : c + 1 = dist oldString newString := by omega
      rw [← hceq]
      exact hres
    · rw [heq]
      have hg2' := hg2
      obtain ⟨-, d0, p0, hlive, hpok, hdist⟩ := hg2
      have hpos := distSuffix_pos_of_pathOK newString oldString (c + 1) d0 p0 hpok
      have hlt : c + 1 < dist oldString newString := by omega
      exact ih (c + 1) bp2 (by omega) hlt hg2'

/-! Top-level correctness of `diffChars` on the non-trivial inputs: the search
loop terminates with a minimal, aligned, merged edit script. -/

theorem diffChars_main {α} [DecidableEq α] (oldString newString : List α)
    (hne : ¬ newString = oldString) (hn : ¬ newString = []) (ho : ¬ oldString = []) :
    ∃ res, diffChars oldString newString = some res ∧
      ResultOK newString oldString (dist oldString newString) res := by
  have hnotboth : ¬ (lcpLength newString oldString = newString.length ∧
      lcpLength newString oldString = oldString.length) := by
    rintro ⟨h1, h2⟩
    apply hne
    calc newString = newString.take (lcpLength newString oldString) := by
          rw [h1, List.take_length]
      _ = oldString.take (lcpLength newString oldString) := lcpLength_take _ _
      _ = oldString := by rw [h2, List.take_length]
  have hec := extractCommon_spec newString oldString ⟨-1, []⟩ 0 0 0 (by norm_num)
    (by norm_num) (Nat.zero_le _) (Nat.zero_le _)
  simp only [List.drop_zero, List.nil_append] at hec
  have h1 := lcpLength_le_left newString oldString
  have h2 := lcpLength_le_right newString oldString
  set s := lcpLength newString oldString with hs
  unfold diffChars
  rw [if_neg hne, if_neg hn, if_neg ho]
  simp only [hec, Nat.cast_zero]
  set cs0 : List (Component α) :=
    if s ≠ 0 then [(⟨some s, false, false, []⟩ : Component α)] else [] with hcs0
  have hcond : ¬ ((0 : Int) - 1 + (s : Int) + 1 ≥ (newString.length : Int) ∧
      (0 : Int) - 1 + (s : Int) + 1 ≥ (oldString.length : Int)) := by
    rintro ⟨c1, c2⟩
    exact hnotboth ⟨by omega, by omega⟩
  rw [if_neg hcond]
  obtain ⟨hsn, hso, hes, hal, hjle, hile, hmax, hcounts, hflags, hchain, -, hdisteq⟩ :=
    snake_extend newString oldString [] 0 0 0 rfl rfl rfl rfl (Nat.zero_le _)
      (Nat.zero_le _) (by intro c hc; simp at hc) (by intro c hc; simp at hc)
      List.chain'_nil (by simp [kinds]) s (by rw [hs]; simp) cs0 (by rw [hcs0]; simp)
  have hpok : PathOK newString oldString 0 0
      (⟨(0 : Int) - 1 + (s : Int), cs0⟩ : SPath α) := by
    refine ⟨?_, ?_, ?_, hal, ?_, ?_, ?_, ?_, hcounts, hflags, hchain, ?_⟩
    · show (0 : Int) - 1 + (s : Int) = ((sumNew cs0 : Nat) : Int) - 1
      rw [hsn]; push_cast; ring
    · show ((sumNew cs0 : Nat) : Int) - ((sumOld cs0 : Nat) : Int) = 0
      rw [hsn, hso]; ring
    · exact hes
    · show sumNew cs0 ≤ newString.length
      rw [hsn]; exact hjle
    · show sumOld cs0 ≤ oldString.length
      rw [hso]; exact hile
    · show lcpLength (newString.drop (sumNew cs0)) (oldString.drop (sumOld cs0)) = 0
      rw [hsn, hso]; exact hmax
    · show ¬ (sumNew cs0 = newString.length ∧ sumOld cs0 = oldString.length)
      rw [hsn, hso]
      rintro ⟨hx, hy⟩
      exact hnotboth ⟨by omega, by omega⟩
    · intro hge
      rw [← hs] at hge ⊢
      refine ⟨[], ?_⟩
      rw [hcs0, if_pos (by omega : s ≠ 0)]
  have hgs : GoodState newString oldString 0
      (fun d => if d = 0 then some (⟨(0 : Int) - 1 + (s : Int), cs0⟩ : SPath α)
        else none) := by
    constructor
    · intro d p hd
      beta_reduce at hd
      by_cases hd0 : d = 0
      · subst hd0
        rw [if_pos rfl] at hd
        obtain rfl := Option.some.inj hd
        exact ⟨by norm_num, by norm_num, by norm_num, hpok⟩
      · rw [if_neg hd0] at hd
        exact absurd hd (by simp)
    · refine ⟨0, _, by beta_reduce; rw [if_pos rfl], hpok, ?_⟩
      show distSuffix newString oldString (sumOld cs0) (sumNew cs0) + 0 =
        dist oldString newString
      rw [hsn, hso, hdisteq]
      show dist (oldString.drop 0) (newString.drop 0) + 0 = dist oldString newString
      simp
  have hdpos : 0 < dist oldString newString := by
    rcases Nat.eq_zero_or_pos (dist oldString newString) with h0 | h
    · exact absurd (dist_eq_zero _ _ h0).symm hne
    · exact h
  obtain ⟨res, hres, hok⟩ := diffLoop_good newString oldString
    (dist oldString newString) 0 _ (by omega) hdpos hgs
  exact ⟨res, hres, hok⟩

/-! The three unrolled trivial cases of `diffChars`, as equations. -/

theorem diffChars_eq_of_eq {α} [DecidableEq α] (oldString newString : List α)
    (h : newString = oldString) :
    diffChars oldString newString = some [⟨none, false, false, newString⟩] := by
  unfold diffChars
  rw [if_pos h]

theorem diffChars_eq_of_newNil {α} [DecidableEq α] (oldString newString : List α)
    (hne : ¬ newString = oldString) (h : newString = []) :
    diffChars oldString newString = some [⟨none, false, true, oldString⟩] := by
  unfold diffChars
  rw [if_neg hne, if_pos h]

theorem diffChars_eq_of_oldNil {α} [DecidableEq α] (oldString newString : List α)
    (hne : ¬ newString = oldString) (hn : ¬ newString = []) (h : oldString = []) :
    diffChars oldString newString = some [⟨none, true, false, newString⟩] := by
  unfold diffChars
  rw [if_neg hne, if_neg hn, if_pos h]

/-! The value lengths of the edit components agree with their counts on any
script whose counts are materialized. -/

theorem editValSum_nil {α} : editValSum ([] : List (Component α)) = 0 := rfl

theorem editValSum_cons {α} (c : Component α) (cs : List (Component α)) :
    editValSum (c :: cs) =
      (if c.added || c.removed then c.value.length else 0) + editValSum cs := by
  simp [editValSum]

theorem editValSum_eq_editSum {α} :
    ∀ cs : List (Component α),
      (∀ c ∈ cs, ∃ k, c.count = some k ∧ 1 ≤ k ∧ c.value.length = k) →
      editValSum cs = editSum cs := by
  intro cs
  induction cs with
  | nil => intro _; rfl
  | cons c cs ih =>
    intro h
    obtain ⟨k, hk, -, hv⟩ := h c (by simp)
    rw [editValSum_cons, editSum_cons, ih (fun d hd => h d (by simp [hd]))]
    congr 1
    by_cases hc : c.added || c.removed
    · rw [if_pos hc, if_pos hc, hv]
      simp [cnt, hk]
    · rw [if_neg hc, if_neg hc]

/-- Case dispatch for `diffChars`: the three unrolled trivial results, or a
result of the main search satisfying the full invariant bundle. -/
theorem diffChars_main_cases {α} [DecidableEq α] (oldString newString : List α) :
    ∃ res, diffChars oldString newString = some res ∧
      ((newString = oldString ∧ res = [⟨none, false, false, newString⟩]) ∨
       (newString ≠ oldString ∧ newString = [] ∧ res = [⟨none, false, true, oldString⟩]) ∨
       (newString ≠ oldString ∧ newString ≠ [] ∧ oldString = [] ∧
         res = [⟨none, true, false, newString⟩]) ∨
       (newString ≠ oldString ∧ newString ≠ [] ∧ oldString ≠ [] ∧
         ResultOK newString oldString (dist oldString newString) res)) := by
  by_cases h1 : newString = oldString
  · exact ⟨_, diffChars_eq_of_eq _ _ h1, Or.inl ⟨h1, rfl⟩⟩
  · by_cases h2 : newString = []
    · exact ⟨_, diffChars_eq_of_newNil _ _ h1 h2, Or.inr (Or.inl ⟨h1, h2, rfl⟩)⟩
    · by_cases h3 : oldString = []
      · exact ⟨_, diffChars_eq_of_oldNil _ _ h1 h2 h3,
          Or.inr (Or.inr (Or.inl ⟨h1, h2, h3, rfl⟩))⟩
      · obtain ⟨res, hres, hok⟩ := diffChars_main oldString newString h1 h2 h3
        exact ⟨res, hres, Or.inr (Or.inr (Or.inr ⟨h1, h2, h3, hok⟩))⟩

/-- C1: the total length of inserted plus deleted material in the script
returned by `diffChars` equals the dynamic-programming insert/delete edit
distance, and that distance is minimal over all valid (aligned, fully
covering) edit scripts. Stated with `editValSum` (total length of the added
and removed values) because the unrolled trivial cases return components
whose `count` field is absent. -/
theorem claim1_minimality {α : Type} [DecidableEq α] (oldString newString : List α) :
    (∃ res, diffChars oldString newString = some res ∧
      editValSum res = dist oldString newString) ∧
    ∀ cs : List (Component α), alignedB newString oldString cs 0 0 = true →
      sumNew cs = newString.length → sumOld cs = oldString.length →
      dist oldString newString ≤ editSum cs := by
  constructor
  · obtain ⟨res, hres, hcase⟩ := diffChars_main_cases oldString newString
    refine ⟨res, hres, ?_⟩
    rcases hcase with ⟨h, rfl⟩ | ⟨h1, h2, rfl⟩ | ⟨h1, h2, h3, rfl⟩ | ⟨h1, h2, h3, hok⟩
    · rw [h, dist_self]
      simp [editValSum]
    · rw [h2, dist_nil_right]
      simp [editValSum]
    · rw [h3, dist_nil_left]
      simp [editValSum]
    · rw [editValSum_eq_editSum res hok.counts, hok.esum]
  · intro cs hal hn2 ho2
    have h := dist_le_editSum newString oldString cs 0 0 hal
    simp only [List.drop_zero, Nat.zero_add] at h
    rw [hn2, ho2, List.drop_length, List.drop_length] at h
    rw [dist_nil_left] at h
    simpa using h

/-- A trivial-case component of `diffChars` carries no `count` at all, so the
sum of the counts of added and removed components there is 0 while the edit
distance is 1: the claim's reading of `count` fails on the unrolled cases. -/
theorem claim1_counterexample :
    diffChars ([] : List Char) ['a'] = some [⟨none, true, false, ['a']⟩] ∧
    editSum [(⟨none, true, false, ['a']⟩ : Component Char)] = 0 ∧
    dist ([] : List Char) ['a'] = 1 := by
  refine ⟨by decide, by decide, ?_⟩
  rw [dist_nil_left]
  decide

/-- C2: concatenating the values of the non-removed components reconstructs
the new sequence, and concatenating the values of the non-added components
reconstructs the old sequence. -/
theorem claim2_reconstruction {α : Type} [DecidableEq α] (oldString newString : List α) :
    ∃ res, diffChars oldString newString = some res ∧
      nonRemovedConcat res = newString ∧ nonAddedConcat res = oldString := by
  obtain ⟨res, hres, hcase⟩ := diffChars_main_cases oldString newString
  refine ⟨res, hres, ?_⟩
  rcases hcase with ⟨h, rfl⟩ | ⟨h1, h2, rfl⟩ | ⟨h1, h2, h3, rfl⟩ | ⟨h1, h2, h3, hok⟩
  · constructor <;>
      simp [nonRemovedConcat_cons, nonAddedConcat_cons, nonRemovedConcat_nil,
        nonAddedConcat_nil, h]
  · constructor <;>
      simp [nonRemovedConcat_cons, nonAddedConcat_cons, nonRemovedConcat_nil,
        nonAddedConcat_nil, h2]
  · constructor <;>
      simp [nonRemovedConcat_cons, nonAddedConcat_cons, nonRemovedConcat_nil,
        nonAddedConcat_nil, h3]
  · exact ⟨hok.reconNew, hok.reconOld⟩

/-- C3: `diffChars` is total: the trial-edit-length loop always produces a
result before exceeding the maximum edit length, on every input pair. -/
theorem claim3_total {α : Type} [DecidableEq α] (oldString newString : List α) :
    (diffChars oldString newString).isSome = true := by
  obtain ⟨res, hres, -⟩ := diffChars_main_cases oldString newString
  rw [hres]
  rfl

/-- C4: the branch-selection condition, when both predecessors are available,
takes the insert-derived path exactly when the delete predecessor's new-sequence
position is less than or equal to the insert predecessor's — the opposite
polarity of the strictly-less rule the specification states. -/
theorem claim4_tiebreak (addNewPos removeNewPos : Int) :
    selectBase true true addNewPos removeNewPos = false ↔
      removeNewPos ≤ addNewPos := by
  simp only [selectBase, Bool.not_true, Bool.false_or, Bool.true_and,
    decide_eq_false_iff_not, Int.not_lt]

/-- With both predecessors available and the insert predecessor strictly
behind in the new sequence, the code takes the delete-move branch
(`selectBase` answers `true`), not the insert-derived path the specification's
strictly-less rule prescribes. -/
theorem claim4_counterexample :
    selectBase true true 0 1 = true ∧ ((0 : Int) < 1) := by
  decide

/-- C5: no two consecutive components of a returned script carry the same
added/removed flag pair. -/
theorem claim5_no_adjacent_same_kind {α : Type} [DecidableEq α]
    (oldString newString : List α) :
    ∃ res, diffChars oldString newString = some res ∧
      List.Chain' (fun a b => ¬ sameKind a b) res := by
  obtain ⟨res, hres, hcase⟩ := diffChars_main_cases oldString newString
  refine ⟨res, hres, ?_⟩
  rcases hcase with ⟨h, rfl⟩ | ⟨h1, h2, rfl⟩ | ⟨h1, h2, h3, rfl⟩ | ⟨h1, h2, h3, hok⟩
  · exact List.chain'_singleton _
  · exact List.chain'_singleton _
  · exact List.chain'_singleton _
  · exact hok.chain

/-- C6: on identical inputs, including the empty sequence, `diffChars` returns
one common component carrying the whole sequence. -/
theorem claim6_identity {α : Type} [DecidableEq α] (S : List α) :
    diffChars S S = some [⟨none, false, false, S⟩] :=
  diffChars_eq_of_eq S S rfl

/-- C7: against an empty old sequence a non-empty new sequence comes back as a
single added component, and against an empty new sequence the old one comes
back as a single removed component. -/
theorem claim7_empty_cases {α : Type} [DecidableEq α] (S : List α) (h : S ≠ []) :
    diffChars ([] : List α) S = some [⟨none, true, false, S⟩] ∧
    diffChars S ([] : List α) = some [⟨none, false, true, S⟩] := by
  constructor
  · exact diffChars_eq_of_oldNil [] S h h rfl
  · exact diffChars_eq_of_newNil S [] (fun heq => h heq.symm) rfl

theorem claim7_witness :
    diffChars ([] : List Char) ['a'] = some [⟨none, true, false, ['a']⟩] ∧
    diffChars ['a'] ([] : List Char) = some [⟨none, false, true, ['a']⟩] :=
  claim7_empty_cases ['a'] (by decide)

/-- C8: every returned component has at most one of the added/removed flags
set, and every `count` it does carry is at least 1. Stated on the counts that
are present because the unrolled trivial cases return components with no
`count` at all. -/
theorem claim8_flags_counts {α : Type} [DecidableEq α] (oldString newString : List α)
    (res : List (Component α)) (c : Component α)
    (hres : diffChars oldString newString = some res) (hc : c ∈ res) :
    ¬ (c.added = true ∧ c.removed = true) ∧ ∀ k, c.count = some k → 1 ≤ k := by
  obtain ⟨res2, hres2, hcase⟩ := diffChars_main_cases oldString newString
  rw [hres2] at hres
  obtain rfl := Option.some.inj hres
  rcases hcase with ⟨h, rfl⟩ | ⟨h1, h2, rfl⟩ | ⟨h1, h2, h3, rfl⟩ | ⟨h1, h2, h3, hok⟩
  · rw [List.mem_singleton] at hc
    subst hc
    exact ⟨by simp, fun k hk => by simp at hk⟩
  · rw [List.mem_singleton] at hc
    subst hc
    exact ⟨by simp, fun k hk => by simp at hk⟩
  · rw [List.mem_singleton] at hc
    subst hc
    exact ⟨by simp, fun k hk => by simp at hk⟩
  · refine ⟨hok.flags c hc, ?_⟩
    intro k hk
    obtain ⟨k2, hk2, hk1, -⟩ := hok.counts c hc
    rw [hk2] at hk
    obtain rfl := Option.some.inj hk
    omega

theorem claim8_witness :
    ¬ ((⟨none, false, false, ['a']⟩ : Component Char).added = true ∧
      (⟨none, false, false, ['a']⟩ : Component Char).removed = true) ∧
    ∀ k, (⟨none, false, false, ['a']⟩ : Component Char).count = some k → 1 ≤ k :=
  claim8_flags_counts ['a'] ['a'] [⟨none, false, false, ['a']⟩]
    ⟨none, false, false, ['a']⟩ (by decide) (by decide)

/-- A returned component may carry no `count` at all: on identical inputs the
result's single component has `count` absent, so "count at least 1" fails as
stated for every script the function returns. -/
theorem claim8_counterexample :
    diffChars ['a'] ['a'] = some [⟨none, false, false, ['a']⟩] ∧
    (⟨none, false, false, ['a']⟩ : Component Char).count = none := by
  exact ⟨diffChars_eq_of_eq _ _ rfl, rfl⟩

/-- C9: on old sequence "abc" and new sequence "abXc" the search returns
exactly the script common "ab", added "X", common "c", with counts 2, 1, 1. -/
theorem claim9_concrete :
    diffChars ['a', 'b', 'c'] ['a', 'b', 'X', 'c'] =
      some [⟨some 2, false, false, ['a', 'b']⟩, ⟨some 1, true, false, ['X']⟩,
        ⟨some 1, false, false, ['c']⟩] := by
  have hec0 := extractCommon_spec ['a', 'b', 'X', 'c'] ['a', 'b', 'c']
    ⟨-1, []⟩ 0 0 0 (by decide) (by decide) (by decide) (by decide)
  simp only [List.drop_zero, List.nil_append] at hec0
  rw [show lcpLength ['a', 'b', 'X', 'c'] ['a', 'b', 'c'] = 2 from by decide] at hec0
  norm_num at hec0
  unfold diffChars
  rw [if_neg (by decide : ¬ ((['a','b','X','c'] : List Char) = ['a','b','c'])),
    if_neg (by decide : ¬ ((['a','b','X','c'] : List Char) = [])),
    if_neg (by decide : ¬ ((['a','b','c'] : List Char) = []))]
  simp only [hec0]
  rw [if_neg (by decide : ¬ ((1 : Int) + 1 ≥ (↑(List.length (['a','b','X','c'] : List Char)) : Int) ∧
    (1 : Int) + 1 ≥ (↑(List.length (['a','b','c'] : List Char)) : Int)))]
  rw [diffLoop]
  rw [if_pos (by decide : 1 ≤ List.length (['a','b','X','c'] : List Char) +
    List.length (['a','b','c'] : List Char))]
  rw [show diagonals 1 = [-1, 1] from by decide]
  have hecA := extractCommon_spec ['a', 'b', 'X', 'c'] ['a', 'b', 'c']
    ⟨1, [⟨some 2, false, false, []⟩, ⟨some 1, false, true, []⟩]⟩ (-1) 2 3
    (by decide) (by decide) (by decide) (by decide)
  rw [show lcpLength (List.drop 2 (['a','b','X','c'] : List Char))
    (List.drop 3 (['a','b','c'] : List Char)) = 0 from by decide] at hecA
  norm_num at hecA
  have hstep1 : execDiagonal ['a', 'b', 'X', 'c'] ['a', 'b', 'c']
      (fun d => if d = 0 then
        some (⟨1, [⟨some 2, false, false, []⟩]⟩ : SPath Char) else none) (-1) =
      Sum.inr (fun k => if k = -1 then
        some (⟨1, [⟨some 2, false, false, []⟩, ⟨some 1, false, true, []⟩]⟩ : SPath Char)
      else if k = 0 then some (⟨1, [⟨some 2, false, false, []⟩]⟩ : SPath Char)
      else none) := by
    have ha : (fun d => if d = 0 then
        some (⟨1, [⟨some 2, false, false, []⟩]⟩ : SPath Char) else none)
        ((-1 : Int) - 1) = none := by decide
    have hr : (fun d => if d = 0 then
        some (⟨1, [⟨some 2, false, false, []⟩]⟩ : SPath Char) else none)
        ((-1 : Int) + 1) = some (⟨1, [⟨some 2, false, false, []⟩]⟩ : SPath Char) := by
      decide
    unfold execDiagonal
    simp only [ha, hr]
    simp [clonePath, pushComponent, selectBase, hecA]
  have hecB := extractCommon_spec ['a', 'b', 'X', 'c'] ['a', 'b', 'c']
    ⟨2, [⟨some 2, false, false, []⟩, ⟨some 1, true, false, []⟩]⟩ 1 3 2
    (by decide) (by decide) (by decide) (by decide)
  rw [show lcpLength (List.drop 3 (['a','b','X','c'] : List Char))
    (List.drop 2 (['a','b','c'] : List Char)) = 1 from by decide] at hecB
  norm_num at hecB
  have hstep2 : execDiagonal ['a', 'b', 'X', 'c'] ['a', 'b', 'c']
      (fun k => if k = -1 then
        some (⟨1, [⟨some 2, false, false, []⟩, ⟨some 1, false, true, []⟩]⟩ : SPath Char)
      else if k = 0 then some (⟨1, [⟨some 2, false, false, []⟩]⟩ : SPath Char)
      else none) 1 =
      Sum.inl [⟨some 2, false, false, ['a', 'b']⟩, ⟨some 1, true, false, ['X']⟩,
        ⟨some 1, false, false, ['c']⟩] := by
    have ha : (fun k => if k = -1 then
        some (⟨1, [⟨some 2, false, false, []⟩, ⟨some 1, false, true, []⟩]⟩ : SPath Char)
      else if k = 0 then some (⟨1, [⟨some 2, false, false, []⟩]⟩ : SPath Char)
      else none) ((1 : Int) - 1) =
        some (⟨1, [⟨some 2, false, false, []⟩]⟩ : SPath Char) := by decide
    have hr : (fun k => if k = -1 then
        some (⟨1, [⟨some 2, false, false, []⟩, ⟨some 1, false, true, []⟩]⟩ : SPath Char)
      else if k = 0 then some (⟨1, [⟨some 2, false, false, []⟩]⟩ : SPath Char)
      else none) ((1 : Int) + 1) = none := by decide
    unfold execDiagonal
    simp only [ha, hr]
    simp [clonePath, pushComponent, selectBase, hecB, buildValues, cnt]
  rw [execDiagLoop_cons_inr _ _ _ _ _ _ hstep1]
  rw [execDiagLoop_cons_inl _ _ _ _ _ _ hstep2]

/-- C10: when the two distinct sequences share a non-empty common prefix, the
returned script starts with one common component carrying exactly the longest
common prefix. -/
theorem claim10_common_prefix {α : Type} [DecidableEq α] (oldString newString : List α)
    (hne : newString ≠ oldString) (hlcp : 1 ≤ lcpLength newString oldString) :
    ∃ res rest, diffChars oldString newString = some res ∧
      res = Component.mk (some (lcpLength newString oldString)) false false
        (newString.take (lcpLength newString oldString)) :: rest ∧
      newString.take (lcpLength newString oldString) =
        oldString.take (lcpLength newString oldString) := by
  have hn : newString ≠ [] := by
    intro h
    rw [h, lcpLength_nil_left] at hlcp
    omega
  have ho : oldString ≠ [] := by
    intro h
    rw [h, lcpLength_nil_right] at hlcp
    omega
  obtain ⟨res, hres, hok⟩ := diffChars_main oldString newString hne hn ho
  obtain ⟨rest, hrest⟩ := hok.headlcp hlcp
  exact ⟨res, rest, hres, hrest, lcpLength_take _ _⟩

theorem claim10_witness :
    ∃ res rest, diffChars ['a', 'b'] ['a', 'c'] = some res ∧
      res = Component.mk (some (lcpLength ['a', 'c'] ['a', 'b'])) false false
        (List.take (lcpLength ['a', 'c'] ['a', 'b']) ['a', 'c']) :: rest ∧
      List.take (lcpLength ['a', 'c'] ['a', 'b']) ['a', 'c'] =
        List.take (lcpLength ['a', 'c'] ['a', 'b']) ['a', 'b'] :=
  claim10_common_prefix ['a', 'b'] ['a', 'c'] (by decide) (by decide)

end Tralala
